import Mathlib

/-!
Verification development for the dctc SWC bundler (`src/lib/complie_swc.js`).

The JavaScript source is shallowly embedded: strings are `List Char`
(wrapped back into `String` at the interfaces), the pieces of the host
environment that the bundler consumes (filesystem, SWC parse/transform,
`path` operations) are fields of an explicit `Env` capability record, and
the `new RegExp(...).replace` machinery used by `rewriteLocalRequires`
is modelled by a small executable engine for the fragment of JavaScript
regular expressions reachable from the patterns the bundler constructs
(literals, escapes, `.`, character classes, quantifiers with laziness,
alternation, groups, anchors and `\b`), together with the
`GetSubstitution` treatment of `$`-sequences in string replacements.
-/

namespace Dctc

/-! ## Basic character/string helpers -/

/-- ASCII word character, as used by the JavaScript `\b` assertion in
non-unicode mode: `[A-Za-z0-9_]`. -/
def isWordChar (c : Char) : Bool :=
  (('a' ≤ c && c ≤ 'z') || ('A' ≤ c && c ≤ 'Z') || ('0' ≤ c && c ≤ '9') || c = '_')

/-- JavaScript line terminators, which `.` does not match (no `s` flag). -/
def isLineTerm (c : Char) : Bool :=
  c = '\n' || c = '\r' || c = (Char.ofNat 0x2028) || c = (Char.ofNat 0x2029)

/-- `s.extract a b` : the characters of `s` in positions `[a, b)`. -/
def listExtract (s : List Char) (a b : Nat) : List Char :=
  (s.take b).drop a

/-- Does the literal string `pat` occur at the beginning of `s`? -/
def litHere : List Char → List Char → Bool
  | [], _ => true
  | _ :: _, [] => false
  | p :: ps, c :: cs => p = c && litHere ps cs

/-- Does the literal string `pat` occur at position `i` of `s`? -/
def litAt (s : List Char) (i : Nat) (pat : List Char) : Bool :=
  litHere pat (s.drop i)

/-- Does the literal string `pat` occur anywhere in `s`? -/
def litOccurs (pat : List Char) : List Char → Bool
  | [] => litHere pat []
  | c :: cs => litHere pat (c :: cs) || litOccurs pat cs

/-- The JavaScript `\b` word-boundary test at position `i` of `s`:
the word-ness of the previous character (out of range counts as
non-word) differs from the word-ness of the current one. -/
def wordBoundaryAt (s : List Char) (i : Nat) : Bool :=
  let before : Bool := match i with
    | 0 => false
    | j + 1 => match s.get? j with
      | some c => isWordChar c
      | none => false
  let here : Bool := match s.get? i with
    | some c => isWordChar c
    | none => false
  before != here

/-! ## The escaping helpers of `complie_swc.js` -/

/-- The characters `escapeForRegex` escapes: `[.*+?^${}()|[\]\\]`. -/
def isRegexMeta (c : Char) : Bool :=
  c = '.' || c = '*' || c = '+' || c = '?' || c = '^' || c = '$' ||
  c = '{' || c = '}' || c = '(' || c = ')' || c = '|' || c = '[' ||
  c = ']' || c = '\\'

/-- `escapeForRegex` (complie_swc.js line 316): prefix every
regular-expression metacharacter with a backslash so it is matched
literally. -/
def escapeForRegex : List Char → List Char
  | [] => []
  | c :: cs => (if isRegexMeta c then ['\\', c] else [c]) ++ escapeForRegex cs

/-- `escapeForJsString` (complie_swc.js line 303): escape backslashes and
double quotes for embedding in a double-quoted JS string literal. -/
def escapeForJsString : List Char → List Char
  | [] => []
  | c :: cs =>
    (if c = '\\' then ['\\', '\\'] else if c = '"' then ['\\', '"'] else [c]) ++
      escapeForJsString cs

/-! ## A JavaScript regular-expression fragment

`rewriteLocalRequires` constructs `new RegExp(pattern, "g")` from strings
it assembles at run time and applies `String.prototype.replace`.  We model
the fragment of the JavaScript regular-expression language reachable from
those patterns.  Constructs outside the fragment (look-around groups,
named groups, backreferences) make `parseRe` return `none`, the model of a
`SyntaxError` thrown by the `RegExp` constructor. -/

/-- Regular-expression abstract syntax. `rep lo hi lazy r` is the
quantifier family (`*`, `+`, `?`, `{m}`, `{m,}`, `{m,n}`, optionally
lazy); `cls` is a character class given by inclusive ranges. -/
inductive Re where
  | eps
  | lit (c : Char)
  | anyc
  | cls (neg : Bool) (items : List (Char × Char))
  | cat (a b : Re)
  | alt (a b : Re)
  | rep (lo : Nat) (hi : Option Nat) (lzy : Bool) (r : Re)
  | group (r : Re)
  | bol
  | eol
  | wordB
deriving Repr, DecidableEq

/-- Right-nested sequencing of a list of regular expressions. -/
def seqify (rs : List Re) : Re :=
  rs.foldr Re.cat Re.eps

/-- A list of single-character literals. -/
def lits (cs : List Char) : List Re :=
  cs.map Re.lit

def isDigitCh (c : Char) : Bool :=
  '0' ≤ c && c ≤ '9'

/-- Accumulate a run of decimal digits. -/
def digitsAux : Nat → List Char → Nat × List Char
  | acc, c :: cs =>
    if isDigitCh c then digitsAux (acc * 10 + (c.toNat - '0'.toNat)) cs
    else (acc, c :: cs)
  | acc, [] => (acc, [])

/-- Parse a run of decimal digits (at least one). -/
def parseDigits : List Char → Option (Nat × List Char)
  | c :: cs =>
    if isDigitCh c then some (digitsAux (c.toNat - '0'.toNat) cs)
    else none
  | [] => none

/-- The apostrophe character (used in single-quoted require patterns). -/
def sq : Char := Char.ofNat 39

/-- The backtick character (used by `GetSubstitution`). -/
def btick : Char := Char.ofNat 96

/-- Try to read a quantifier (`*`, `+`, `?`, `{m}`, `{m,}`, `{m,n}`) at the
head of the input. `none` means no quantifier starts here (a `{` that is
not quantifier-shaped is a literal, as in Annex B); a quantifier with its
bounds out of order is modelled in `applyQuant`. -/
def quantOf (ts : List Char) : Option (Nat × Option Nat × List Char) :=
  match ts with
  | [] => none
  | c :: rest =>
    if c = '*' then some (0, none, rest)
    else if c = '+' then some (1, none, rest)
    else if c = '?' then some (0, some 1, rest)
    else if c = '{' then
      match parseDigits rest with
      | some (lo, r2) =>
        (match r2 with
         | '}' :: r3 => some (lo, some lo, r3)
         | ',' :: '}' :: r3 => some (lo, none, r3)
         | ',' :: r3 =>
           (match parseDigits r3 with
            | some (hi, '}' :: r4) => some (lo, some hi, r4)
            | _ => none)
         | _ => none)
      | none => none
    else none

def isAssertRe : Re → Bool
  | .bol => true
  | .eol => true
  | .wordB => true
  | _ => false

/-- Apply an optional quantifier (with optional lazy `?`) to a parsed atom.
`none` models a `SyntaxError`: a quantified assertion or out-of-order
bounds. -/
def applyQuant (a : Re) (ts : List Char) : Option (Re × List Char) :=
  match quantOf ts with
  | none => some (a, ts)
  | some (lo, hi, rest) =>
    if isAssertRe a then none
    else if (match hi with | some h => decide (h < lo) | none => false) then none
    else match rest with
      | c :: r2 =>
        if c = '?' then some (Re.rep lo hi true a, r2)
        else some (Re.rep lo hi false a, rest)
      | [] => some (Re.rep lo hi false a, [])

/-- One endpoint of a character-class item, resolving escapes (`\b` inside
a class is the backspace character). -/
def clsEnd (ts : List Char) : Option (Char × List Char) :=
  match ts with
  | [] => none
  | c :: rest =>
    if c = '\\' then
      match rest with
      | [] => none
      | d :: r2 => some ((if d = 'b' then Char.ofNat 8 else d), r2)
    else some (c, rest)

/-- Parse the items of a character class up to the closing `]`. -/
def parseClsItems : Nat → List Char → List (Char × Char) →
    Option (List (Char × Char) × List Char)
  | 0, _, _ => none
  | _ + 1, [], _ => none
  | fuel + 1, c :: rest, acc =>
    if c = ']' then some (acc.reverse, rest)
    else
      match clsEnd (c :: rest) with
      | none => none
      | some (c1, r1) =>
        match r1 with
        | '-' :: ']' :: r2 => some ((((c1, c1) :: acc).reverse) ++ [('-', '-')], r2)
        | '-' :: r2 =>
          (match clsEnd r2 with
           | none => none
           | some (c2, r3) =>
             if c1 ≤ c2 then parseClsItems fuel r3 ((c1, c2) :: acc) else none)
        | _ => parseClsItems fuel r1 ((c1, c1) :: acc)

mutual

/-- Parse an alternation (`a|b|...`). -/
def parseAlt : Nat → List Char → Option (Re × List Char)
  | 0, _ => none
  | fuel + 1, ts =>
    match parseSeq fuel ts [] with
    | none => none
    | some (items, rest) =>
      match rest with
      | '|' :: more =>
        (match parseAlt fuel more with
         | none => none
         | some (b, rest2) => some (Re.alt (seqify items) b, rest2))
      | _ => some (seqify items, rest)

/-- Parse a sequence of quantified atoms, stopping at `)`, `|` or the end. -/
def parseSeq : Nat → List Char → List Re → Option (List Re × List Char)
  | 0, _, _ => none
  | fuel + 1, ts, acc =>
    match ts with
    | [] => some (acc.reverse, [])
    | c :: _ =>
      if c = ')' || c = '|' then some (acc.reverse, ts)
      else
        match parseAtom fuel ts with
        | none => none
        | some (a, r1) =>
          match applyQuant a r1 with
          | none => none
          | some (a2, r2) => parseSeq fuel r2 (a2 :: acc)

/-- Parse one atom. `none` models a `SyntaxError` of the `RegExp`
constructor (dangling backslash, unbalanced group, nothing to repeat,
or a construct outside the modelled fragment such as look-around). -/
def parseAtom : Nat → List Char → Option (Re × List Char)
  | 0, _ => none
  | _ + 1, [] => none
  | fuel + 1, c :: rest =>
    if c = '\\' then
      match rest with
      | [] => none
      | d :: r2 => some ((if d = 'b' then Re.wordB else Re.lit d), r2)
    else if c = '(' then
      match rest with
      | '?' :: ':' :: r2 =>
        (match parseAlt fuel r2 with
         | some (r, ')' :: r3) => some (Re.group r, r3)
         | _ => none)
      | '?' :: _ => none
      | _ =>
        (match parseAlt fuel rest with
         | some (r, ')' :: r3) => some (Re.group r, r3)
         | _ => none)
    else if c = '[' then
      match rest with
      | '^' :: r2 =>
        (match parseClsItems (r2.length + 1) r2 [] with
         | some (items, r3) => some (Re.cls true items, r3)
         | none => none)
      | _ =>
        (match parseClsItems (rest.length + 1) rest [] with
         | some (items, r3) => some (Re.cls false items, r3)
         | none => none)
    else if c = '.' then some (Re.anyc, rest)
    else if c = '^' then some (Re.bol, rest)
    else if c = '$' then some (Re.eol, rest)
    else if c = '*' || c = '+' || c = '?' then none
    else if c = '{' then
      match quantOf (c :: rest) with
      | some _ => none
      | none => some (Re.lit '{', rest)
    else some (Re.lit c, rest)

end

/-- Parse a whole pattern string, the model of `new RegExp(pattern)`;
`none` models a thrown `SyntaxError`. -/
def parseRe (pattern : List Char) : Option Re :=
  match parseAlt (4 * pattern.length + 8) pattern with
  | some (r, []) => some r
  | _ => none

/-- A crude structural size of a regular expression, used only to pick a
sufficient amount of matcher fuel. -/
def reSize : Re → Nat
  | .eps => 1
  | .lit _ => 1
  | .anyc => 1
  | .cls _ _ => 1
  | .bol => 1
  | .eol => 1
  | .wordB => 1
  | .cat a b => reSize a + reSize b + 1
  | .alt a b => reSize a + reSize b + 1
  | .group r => reSize r + 1
  | .rep lo hi _ r => reSize r + lo + (match hi with | some h => h | none => 0) + 2

/-- Backtracking matcher in continuation style, the model of the matching
semantics of ECMAScript patterns restricted to our fragment.  `mtch fuel
re s i k` attempts to match `re` in `s` starting at position `i` and
passes the end position to the continuation `k`; the first success in
backtracking order is returned.  Greedy/lazy quantifier order and the
empty-match loop cutoff of `RepeatMatcher` (only when `min = 0`) follow
the spec; fuel exhaustion yields `none`. -/
def mtch : Nat → Re → List Char → Nat → (Nat → Option Nat) → Option Nat
  | 0, _, _, _, _ => none
  | fuel + 1, re, s, i, k =>
    match re with
    | .eps => k i
    | .lit c =>
      (match s.get? i with
       | some d => if d = c then k (i + 1) else none
       | none => none)
    | .anyc =>
      (match s.get? i with
       | some d => if isLineTerm d then none else k (i + 1)
       | none => none)
    | .cls neg items =>
      (match s.get? i with
       | some d =>
         if (items.any (fun p => p.1 ≤ d && d ≤ p.2)) != neg then k (i + 1) else none
       | none => none)
    | .cat a b => mtch fuel a s i (fun j => mtch fuel b s j k)
    | .alt a b =>
      (match mtch fuel a s i k with
       | some r => some r
       | none => mtch fuel b s i k)
    | .group r => mtch fuel r s i k
    | .bol => if i = 0 then k i else none
    | .eol => if i = s.length then k i else none
    | .wordB => if wordBoundaryAt s i then k i else none
    | .rep lo hi lz r =>
      match hi with
      | some 0 => k i
      | _ =>
        let hi' := hi.map (· - 1)
        if lo = 0 then
          if lz then
            match k i with
            | some v => some v
            | none =>
              mtch fuel r s i fun j =>
                if j = i then none else mtch fuel (.rep 0 hi' lz r) s j k
          else
            match mtch fuel r s i fun j =>
                if j = i then none else mtch fuel (.rep 0 hi' lz r) s j k with
            | some v => some v
            | none => k i
        else
          mtch fuel r s i fun j => mtch fuel (.rep (lo - 1) hi' lz r) s j k

/-- Leftmost search: try to match at `i`, then at `i+1`, ... (the scan of
a global `replace`). Returns the span `(start, end)` of the first match. -/
def findFrom (mf : Nat) (re : Re) (s : List Char) : Nat → Nat → Option (Nat × Nat)
  | _, 0 => none
  | i, cnt + 1 =>
    match mtch mf re s i some with
    | some j => some (i, j)
    | none => if i < s.length then findFrom mf re s (i + 1) cnt else none

/-- The `GetSubstitution` treatment of a string replacement with no
capture groups: `$$`, `$&`, `` $` `` and `$'` are interpreted, everything
else (including `$` before a digit, since there are no captures in the
patterns the bundler builds) is literal. -/
def getSubstitution (s : List Char) (i j : Nat) : List Char → List Char
  | [] => []
  | [c] => [c]
  | c :: d :: rest =>
    if c = '$' then
      if d = '$' then '$' :: getSubstitution s i j rest
      else if d = '&' then listExtract s i j ++ getSubstitution s i j rest
      else if d = btick then listExtract s 0 i ++ getSubstitution s i j rest
      else if d = sq then s.drop j ++ getSubstitution s i j rest
      else c :: getSubstitution s i j (d :: rest)
    else c :: getSubstitution s i j (d :: rest)

/-- The scan of `String.prototype.replace` with a global regex and a
string replacement: repeatedly find the leftmost match from the current
position, emit the substitution, and continue after the match (advancing
one character past an empty match, as the `lastIndex` rule does). -/
def replaceGo (mf : Nat) (re : Re) (s repl : List Char) : Nat → Nat → List Char
  | pos, 0 => s.drop pos
  | pos, cnt + 1 =>
    match findFrom mf re s pos (s.length + 1 - pos) with
    | none => s.drop pos
    | some (i, j) =>
      if i < j then
        listExtract s pos i ++ getSubstitution s i j repl ++ replaceGo mf re s repl j cnt
      else
        listExtract s pos i ++ getSubstitution s i j repl ++
          (match s.get? i with
           | some c => c :: replaceGo mf re s repl (i + 1) cnt
           | none => [])

/-- Fuel large enough for every pattern our theorems touch; patterns that
would need more (deeply nested quantifiers) simply fail to match in the
model. -/
def mtchFuel (re : Re) (s : List Char) : Nat :=
  (s.length + 2) * (reSize re + 2)

/-- `s.replace(re, repl)` for a global regex `re` and string `repl`. -/
def replaceAllRe (re : Re) (s repl : List Char) : List Char :=
  replaceGo (mtchFuel re s) re s repl 0 (s.length + 1)

/-! ## The require rewriters

`rewriteLocalRequires` in `src/lib/complie_swc.js` (the SWC compiler) and
its counterpart in `src/unnamed/part_002` (the esbuild compiler) differ in
one place: the SWC version escapes the specifier with `escapeForRegex`
before splicing it into the pattern, the esbuild version splices
`escapeForJsString(spec)` instead. -/

/-- The pattern string `` `\\brequire\\("${specRegex}"\\)` `` - here
`specRegex` is already escaped by the caller. -/
def patDouble (specRegex : List Char) : List Char :=
  ['\\', 'b', 'r', 'e', 'q', 'u', 'i', 'r', 'e', '\\', '(', '"'] ++ specRegex ++
    ['"', '\\', ')']

/-- The pattern string `` `\\brequire\\('${specRegex}'\\)` ``. -/
def patSingle (specRegex : List Char) : List Char :=
  ['\\', 'b', 'r', 'e', 'q', 'u', 'i', 'r', 'e', '\\', '(', sq] ++ specRegex ++
    [sq, '\\', ')']

/-- The replacement string `` `__dctc_require("${idQuoted}")` `` - here
`idQuoted` is already escaped by the caller. -/
def dctcCall (idQuoted : List Char) : List Char :=
  ['_', '_', 'd', 'c', 't', 'c', '_', 'r', 'e', 'q', 'u', 'i', 'r', 'e', '(', '"'] ++
    idQuoted ++ ['"', ')']

/-- One iteration of the SWC rewrite loop: build both regexes from the
escaped specifier and run the two global replaces (double-quoted first). -/
def rewriteOne (code spec id : List Char) : Option (List Char) :=
  let specRegex := escapeForRegex spec
  let idQuoted := escapeForJsString id
  match parseRe (patDouble specRegex) with
  | none => none
  | some reD =>
    match parseRe (patSingle specRegex) with
    | none => none
    | some reS =>
      let repl := dctcCall idQuoted
      some (replaceAllRe reS (replaceAllRe reD code repl) repl)

/-- Fold the rewrite over the entries of the dependency map, in insertion
order (the order of `Object.entries`). -/
def rewriteFold (code : List Char) : List (List Char × List Char) → Option (List Char)
  | [] => some code
  | (spec, id) :: rest =>
    match rewriteOne code spec id with
    | none => none
    | some c2 => rewriteFold c2 rest

/-- `rewriteLocalRequires` (complie_swc.js lines 336-351). `none` models a
thrown exception (never actually reachable: the escaped patterns always
parse). -/
def rewriteLocalRequires (transformedCode : String) (requireMap : List (String × String)) :
    Option String :=
  (rewriteFold transformedCode.data (requireMap.map fun p => (p.1.data, p.2.data))).map
    (fun cs => String.mk cs)

/-- `quoted.replace(/'/g, "\\'")` - the apostrophe-escaping step of the
esbuild variant (a literal global replace). -/
def sqEscape : List Char → List Char
  | [] => []
  | c :: cs => (if c = sq then ['\\', sq] else [c]) ++ sqEscape cs

/-- The esbuild pattern `` `\\brequire\\(\\"${quoted}\\"\\)` ``. -/
def patDoubleEsb (quoted : List Char) : List Char :=
  ['\\', 'b', 'r', 'e', 'q', 'u', 'i', 'r', 'e', '\\', '(', '\\', '"'] ++ quoted ++
    ['\\', '"', '\\', ')']

/-- The esbuild pattern `` `\\brequire\\(\\'${quoted'}\\'\\)` ``. -/
def patSingleEsb (quoted : List Char) : List Char :=
  ['\\', 'b', 'r', 'e', 'q', 'u', 'i', 'r', 'e', '\\', '(', '\\', sq] ++ quoted ++
    ['\\', sq, '\\', ')']

/-- One iteration of the esbuild rewrite loop (`src/unnamed/part_002`
lines 297-312): the specifier is spliced in after `escapeForJsString`
only, so its regex metacharacters stay active. -/
def rewriteOneEsb (code spec id : List Char) : Option (List Char) :=
  let quoted := escapeForJsString spec
  let idQuoted := escapeForJsString id
  match parseRe (patDoubleEsb quoted) with
  | none => none
  | some reD =>
    match parseRe (patSingleEsb (sqEscape quoted)) with
    | none => none
    | some reS =>
      let repl := dctcCall idQuoted
      some (replaceAllRe reS (replaceAllRe reD code repl) repl)

def rewriteFoldEsb (code : List Char) : List (List Char × List Char) → Option (List Char)
  | [] => some code
  | (spec, id) :: rest =>
    match rewriteOneEsb code spec id with
    | none => none
    | some c2 => rewriteFoldEsb c2 rest

/-- `rewriteLocalRequires` of the esbuild compiler
(`src/unnamed/part_002`). -/
def rewriteLocalRequiresEsb (transformedCode : String)
    (requireMap : List (String × String)) : Option String :=
  (rewriteFoldEsb transformedCode.data (requireMap.map fun p => (p.1.data, p.2.data))).map
    (fun cs => String.mk cs)

/-! ## Specifier classifier and resolver -/

/-- `isLocalSpecifier` (complie_swc.js line 36): a specifier is local iff
it starts with `.` or `/` (the `typeof` guard is vacuous for strings). -/
def isLocalSpecifier (spec : String) : Bool :=
  match spec.data with
  | [] => false
  | c :: _ => c = '.' || c = '/'

/-- The fixed extension priority `LOCAL_EXTS` (complie_swc.js line 21). -/
def LOCAL_EXTS : List String := [".ts", ".tsx", ".js", ".jsx", ".json"]

/-- The filesystem capability consumed by the resolver: the repo's
`fileExists` / `dirExists` are thin non-throwing wrappers around
`fs.existsSync` / `fs.statSync`, so they are modelled as opaque boolean
oracles. -/
structure Fsys where
  fileExists : String → Bool
  dirExists : String → Bool

/-- `path.join(basePath, child)` for the only use the bundler makes of it
(an absolute base and a plain relative child): separator concatenation. -/
def pathJoin (p q : String) : String := p ++ "/" ++ q

/-- `resolveWithExt` (complie_swc.js lines 82-98): the exact path if it is
a file, else the path plus each extension in priority order, else - if the
path is a directory - `path/index` plus each extension in the same
order. -/
def resolveWithExt (fs : Fsys) (basePath : String) : Option String :=
  if fs.fileExists basePath then some basePath
  else
    match (LOCAL_EXTS.map fun ext => basePath ++ ext).find? fs.fileExists with
    | some candidate => some candidate
    | none =>
      if fs.dirExists basePath then
        (LOCAL_EXTS.map fun ext => pathJoin basePath ("index" ++ ext)).find? fs.fileExists
      else none

/-- The candidate list in the order the spec describes: exact path, then
extension candidates, then (for directories) index candidates. A reference
definition following the spec's words, to be compared with
`resolveWithExt`. -/
def resolveCandidates (fs : Fsys) (basePath : String) : List String :=
  basePath :: (LOCAL_EXTS.map fun ext => basePath ++ ext) ++
    (if fs.dirExists basePath then
      LOCAL_EXTS.map fun ext => pathJoin basePath ("index" ++ ext)
    else [])

/-! ## The SWC structural tree and the dependency extractor

Only the node shapes `collectSpecifiersFromAst` inspects are given their
own constructors; every other node is `node kids`, carrying the child
nodes its fields hold.  An `ExprOrSpread` argument wrapper is identified
with its expression (the `arg.expression || arg` access). -/

inductive Ast where
  | ident (value : String)
  | strLit (value : String)
  | importDecl (source : Option Ast) (kids : List Ast)
  | exportNamed (source : Option Ast) (kids : List Ast)
  | exportAll (source : Option Ast) (kids : List Ast)
  | call (callee : Ast) (args : List Ast) (kids : List Ast)
  | node (kids : List Ast)

/-- The `.value` field of a node when it is a string (`Identifier` and
`StringLiteral` both carry one); the model of
`typeof node.source.value === "string"`. -/
def valueOf : Ast → Option String
  | .ident v => some v
  | .strLit v => some v
  | _ => none

/-- Insertion into the specifier accumulator, modelling `Set.add` under
the insertion-order enumeration of `Array.from`. -/
def addSpec (s : String) (acc : List String) : List String :=
  if s ∈ acc then acc else acc ++ [s]

/-- The specifier a declaration's `source` field contributes, if any. -/
def sourceSpec (src : Option Ast) (acc : List String) : List String :=
  match src with
  | some n =>
    (match valueOf n with
     | some v => addSpec v acc
     | none => acc)
  | none => acc

/-- The specifier of a `require("x")`-shaped call, if any: the callee
must be the identifier `require`, applied to exactly one string-literal
argument (the checks of complie_swc.js lines 190-204). -/
def reqArgSpec (callee : Ast) (args : List Ast) : Option String :=
  match callee, args with
  | .ident v, [.strLit s] => if v = "require" then some s else none
  | _, _ => none

/-- The specifier a `require("x")`-shaped call contributes, if any. -/
def requireSpec (callee : Ast) (args : List Ast) (acc : List String) : List String :=
  match reqArgSpec callee args with
  | some v => addSpec v acc
  | none => acc

mutual

/-- The `visit` recursion of `collectSpecifiersFromAst` (complie_swc.js
lines 167-210): record what the current node contributes, then walk every
child field. -/
def visitAst : Ast → List String → List String
  | .ident _, acc => acc
  | .strLit _, acc => acc
  | .importDecl src kids, acc => visitList kids (visitOpt src (sourceSpec src acc))
  | .exportNamed src kids, acc => visitList kids (visitOpt src (sourceSpec src acc))
  | .exportAll src kids, acc => visitList kids (visitOpt src (sourceSpec src acc))
  | .call callee args kids, acc =>
    visitList kids (visitList args (visitAst callee (requireSpec callee args acc)))
  | .node kids, acc => visitList kids acc

def visitOpt : Option Ast → List String → List String
  | some n, acc => visitAst n acc
  | none, acc => acc

def visitList : List Ast → List String → List String
  | [], acc => acc
  | n :: rest, acc => visitList rest (visitAst n acc)

end

/-- `collectSpecifiersFromAst` (complie_swc.js lines 164-214). -/
def collectSpecifiersFromAst (ast : Ast) : List String :=
  visitAst ast []

/-- The specifier contributed by a declaration's source, as a list. -/
def ownSrc (src : Option Ast) : List String :=
  match src with
  | some n =>
    (match valueOf n with
     | some v => [v]
     | none => [])
  | none => []

/-- The specifier contributed by a require-shaped call, as a list. -/
def ownReq (callee : Ast) (args : List Ast) : List String :=
  match reqArgSpec callee args with
  | some v => [v]
  | none => []

mutual

/-- Reference characterization for claim C6, following the spec's words:
the specifiers sitting at the three collected positions anywhere in the
tree (import declarations, re-export declarations with a source, and
`require` calls with a single string-literal argument), duplicates kept. -/
def staticSpecs : Ast → List String
  | .ident _ => []
  | .strLit _ => []
  | .importDecl src kids => ownSrc src ++ staticSpecsOpt src ++ staticSpecsList kids
  | .exportNamed src kids => ownSrc src ++ staticSpecsOpt src ++ staticSpecsList kids
  | .exportAll src kids => ownSrc src ++ staticSpecsOpt src ++ staticSpecsList kids
  | .call callee args kids =>
    ownReq callee args ++ staticSpecs callee ++ staticSpecsList args ++ staticSpecsList kids
  | .node kids => staticSpecsList kids

def staticSpecsOpt : Option Ast → List String
  | some n => staticSpecs n
  | none => []

def staticSpecsList : List Ast → List String
  | [] => []
  | n :: rest => staticSpecs n ++ staticSpecsList rest

end

/-! ## The build-time environment

The bundler consumes host capabilities: the filesystem, `path`
operations, `swc.parse` / `swc.transform` and `JSON.parse`.  All but
`JSON.parse` (modelled concretely below, since claim C9 needs its
round-trip with `JSON.stringify`) are fields of an explicit `Env`
record. -/

/-- Build-time failure taxonomy; every constructor aborts the build. -/
inductive BErr where
  | io (path : String)
  | parse (path : String)
  | jsonBad (path : String)
  | xform (path : String)
  | resolve (spec fromFile : String)
  | regex
  | missingEntry (path : String)
deriving DecidableEq, Repr

instance instDecEqExcept {α β : Type} [DecidableEq α] [DecidableEq β] :
    DecidableEq (Except α β) := fun x y =>
  match x, y with
  | .error a, .error b =>
    if h : a = b then .isTrue (by rw [h])
    else .isFalse (by intro hc; injection hc; exact h (by assumption))
  | .ok a, .ok b =>
    if h : a = b then .isTrue (by rw [h])
    else .isFalse (by intro hc; injection hc; exact h (by assumption))
  | .error _, .ok _ => .isFalse (by intro hc; exact Except.noConfusion hc)
  | .ok _, .error _ => .isFalse (by intro hc; exact Except.noConfusion hc)

/-- The host capabilities consumed by `complie_swc`. -/
structure Env where
  /-- `fs.existsSync` (used on the raw entry path). -/
  existsSync : String → Bool
  /-- `fileExists` / `dirExists` wrappers. -/
  fsys : Fsys
  /-- `fs.promises.readFile(p, "utf8")`. -/
  readFile : String → Except BErr String
  /-- `swc.parse` with the options `parseForImports` computes from the
  extension of the path; yields the structural tree. -/
  parseAst : String → String → Except BErr Ast
  /-- `transformToCjs`: `swc.transform` with the fixed CJS/classic-JSX
  option block; an opaque `(path, source) → code` capability. -/
  transform : String → String → Except BErr String
  /-- `path.dirname`. -/
  dirname : String → String
  /-- `path.resolve(baseDir, spec)`. -/
  resolvePath : String → String → String
  /-- `path.resolve(p)` (single argument form). -/
  resolveOne : String → String

/-- `spec.startsWith("/")`, as a head-character test (which is what it
means for a one-character argument). -/
def startsWithSlash (spec : String) : Bool :=
  match spec.data with
  | [] => false
  | c :: _ => c = '/'

/-- `resolveLocal` (complie_swc.js lines 108-116). -/
def resolveLocal (env : Env) (fromFile spec : String) : Except BErr String :=
  let baseDir := env.dirname fromFile
  let abs := if startsWithSlash spec then env.resolveOne spec
             else env.resolvePath baseDir spec
  match resolveWithExt env.fsys abs with
  | some resolved => .ok resolved
  | none => .error (.resolve spec fromFile)

/-- `normalizeId` (complie_swc.js line 128): `path.resolve(p)`. -/
def normalizeId (env : Env) (p : String) : String := env.resolveOne p

/-- The absolute base path `resolveLocal` computes before trying
candidates. -/
def resolveBase (env : Env) (fromFile spec : String) : String :=
  if startsWithSlash spec then env.resolveOne spec
  else env.resolvePath (env.dirname fromFile) spec

/-- `parseForImports` (complie_swc.js lines 226-241): parse the module
with the extension-derived options, collect all static specifiers, and
keep only the local ones. -/
def parseForImports (env : Env) (absPath source : String) : Except BErr (List String) :=
  match env.parseAst absPath source with
  | .error e => .error e
  | .ok ast => .ok ((collectSpecifiersFromAst ast).filter isLocalSpecifier)

/-! ## Path extension (`path.extname(p).toLowerCase()`) -/

/-- The basename characters of a path (after the last `/`). -/
def basenameChars (p : String) : List Char :=
  (p.data.reverse.takeWhile fun c => c ≠ '/').reverse

/-- `path.extname`: the suffix of the basename from its last `.`, unless
that dot is the leading character (dotfiles have no extension). -/
def extnameOf (p : String) : String :=
  let rev := (basenameChars p).reverse
  let afterRev := rev.takeWhile fun c => c ≠ '.'
  match rev.dropWhile (fun c => c ≠ '.') with
  | [] => ""
  | _ :: rest => if rest.isEmpty then "" else String.mk ('.' :: afterRev.reverse)

/-- `path.extname(p).toLowerCase()`. -/
def extnameLower (p : String) : String :=
  String.mk ((extnameOf p).data.map Char.toLower)

/-! ## JSON values, `JSON.stringify` and `JSON.parse`

The host `JSON` capability, modelled concretely because claim C9 rests on
the round-trip `JSON.parse(JSON.stringify(v)) = v`.  Numbers are modelled
as integers (the fragment of JavaScript numbers on which equality of
parsed literals is exact); fractional and exponent number forms are
outside the model and make the parser fail. -/

inductive JVal where
  | jnull
  | jbool (b : Bool)
  | jnum (n : Int)
  | jstr (s : List Char)
  | jarr (xs : List JVal)
  | jobj (fields : List (List Char × JVal))

/-- Lowercase hexadecimal digit. -/
def hexDigit (n : Nat) : Char :=
  if n < 10 then Char.ofNat (48 + n) else Char.ofNat (97 + n - 10)

/-- `QuoteJSONString` escaping of one character. -/
def escChar (c : Char) : List Char :=
  if c = '"' then ['\\', '"']
  else if c = '\\' then ['\\', '\\']
  else if c.toNat = 8 then ['\\', 'b']
  else if c.toNat = 12 then ['\\', 'f']
  else if c = '\n' then ['\\', 'n']
  else if c.toNat = 13 then ['\\', 'r']
  else if c.toNat = 9 then ['\\', 't']
  else if c.toNat < 32 then ['\\', 'u', '0', '0', hexDigit (c.toNat / 16), hexDigit (c.toNat % 16)]
  else [c]

def escStr : List Char → List Char
  | [] => []
  | c :: cs => escChar c ++ escStr cs

/-- A double-quoted JSON string literal. -/
def quoteStr (s : List Char) : List Char :=
  '"' :: escStr s ++ ['"']

def digitChar (n : Nat) : Char := Char.ofNat (48 + n)

def natCharsAux : Nat → List Char → List Char
  | 0, acc => acc
  | n + 1, acc => natCharsAux ((n + 1) / 10) (digitChar ((n + 1) % 10) :: acc)

/-- Decimal digits of a natural number. -/
def natChars (n : Nat) : List Char :=
  if n = 0 then ['0'] else natCharsAux n []

/-- Decimal representation of an integer. -/
def intChars : Int → List Char
  | .ofNat n => natChars n
  | .negSucc n => '-' :: natChars (n + 1)

mutual

/-- `JSON.stringify` (no indentation argument): the compact form. -/
def jsonStringify : JVal → List Char
  | .jnull => ['n', 'u', 'l', 'l']
  | .jbool true => ['t', 'r', 'u', 'e']
  | .jbool false => ['f', 'a', 'l', 's', 'e']
  | .jnum n => intChars n
  | .jstr s => quoteStr s
  | .jarr xs => '[' :: stringifyItems xs ++ [']']
  | .jobj fs => '{' :: stringifyFields fs ++ ['}']

def stringifyItems : List JVal → List Char
  | [] => []
  | [x] => jsonStringify x
  | x :: y :: rest => jsonStringify x ++ ',' :: stringifyItems (y :: rest)

def stringifyFields : List (List Char × JVal) → List Char
  | [] => []
  | [(k, v)] => quoteStr k ++ ':' :: jsonStringify v
  | (k, v) :: f :: rest => quoteStr k ++ ':' :: jsonStringify v ++ ',' :: stringifyFields (f :: rest)

end

/-- JSON whitespace. -/
def isJsonWs (c : Char) : Bool :=
  c = ' ' || c.toNat = 9 || c = '\n' || c.toNat = 13

def skipWs (ts : List Char) : List Char :=
  ts.dropWhile isJsonWs

def hexVal (c : Char) : Option Nat :=
  if isDigitCh c then some (c.toNat - 48)
  else if 'a' ≤ c && c ≤ 'f' then some (c.toNat - 87)
  else if 'A' ≤ c && c ≤ 'F' then some (c.toNat - 55)
  else none

/-- Parse the body of a JSON string literal (after the opening quote) up
to the closing quote. -/
def pStr : Nat → List Char → Option (List Char × List Char)
  | 0, _ => none
  | _ + 1, [] => none
  | fuel + 1, c :: rest =>
    if c = '"' then some ([], rest)
    else if c = '\\' then
      match rest with
      | [] => none
      | d :: r2 =>
        if d = '"' || d = '\\' || d = '/' then
          (pStr fuel r2).map fun p => (d :: p.1, p.2)
        else if d = 'b' then (pStr fuel r2).map fun p => (Char.ofNat 8 :: p.1, p.2)
        else if d = 'f' then (pStr fuel r2).map fun p => (Char.ofNat 12 :: p.1, p.2)
        else if d = 'n' then (pStr fuel r2).map fun p => ('\n' :: p.1, p.2)
        else if d = 'r' then (pStr fuel r2).map fun p => (Char.ofNat 13 :: p.1, p.2)
        else if d = 't' then (pStr fuel r2).map fun p => (Char.ofNat 9 :: p.1, p.2)
        else if d = 'u' then
          match r2 with
          | h1 :: h2 :: h3 :: h4 :: r3 =>
            (match hexVal h1, hexVal h2, hexVal h3, hexVal h4 with
             | some a, some b, some c', some d' =>
               let n := ((a * 16 + b) * 16 + c') * 16 + d'
               if n.isValidChar then
                 (pStr fuel r3).map fun p => (Char.ofNat n :: p.1, p.2)
               else none
             | _, _, _, _ => none)
          | _ => none
        else none
    else if c.toNat < 32 then none
    else (pStr fuel rest).map fun p => (c :: p.1, p.2)

/-- Parse the digit run of a JSON number (leading-zero check included). -/
def pNumDigits (ts : List Char) : Option (Nat × List Char) :=
  let ds := ts.takeWhile isDigitCh
  let rest := ts.dropWhile isDigitCh
  match ds with
  | [] => none
  | [d] => some (d.toNat - 48, rest)
  | d :: _ :: _ => if d = '0' then none else some ((digitsAux 0 ds).1, rest)

mutual

/-- Recursive-descent JSON value (leading whitespace allowed). -/
def pVal : Nat → List Char → Option (JVal × List Char)
  | 0, _ => none
  | fuel + 1, ts =>
    match skipWs ts with
    | 'n' :: 'u' :: 'l' :: 'l' :: rest => some (.jnull, rest)
    | 't' :: 'r' :: 'u' :: 'e' :: rest => some (.jbool true, rest)
    | 'f' :: 'a' :: 'l' :: 's' :: 'e' :: rest => some (.jbool false, rest)
    | '"' :: rest => (pStr (rest.length + 1) rest).map fun p => (.jstr p.1, p.2)
    | '-' :: rest => (pNumDigits rest).map fun p => (.jnum (-(p.1 : Int)), p.2)
    | '[' :: rest =>
      (match skipWs rest with
       | ']' :: r2 => some (.jarr [], r2)
       | r1 => (pItems fuel r1).map fun p => (.jarr p.1, p.2))
    | '{' :: rest =>
      (match skipWs rest with
       | '}' :: r2 => some (.jobj [], r2)
       | r1 => (pFields fuel r1).map fun p => (.jobj p.1, p.2))
    | rest => (pNumDigits rest).map fun p => (.jnum (p.1 : Int), p.2)

/-- Array items separated by commas, ending at `]`. -/
def pItems : Nat → List Char → Option (List JVal × List Char)
  | 0, _ => none
  | fuel + 1, ts =>
    match pVal fuel ts with
    | none => none
    | some (v, rest) =>
      match skipWs rest with
      | ',' :: r2 => (pItems fuel r2).map fun p => (v :: p.1, p.2)
      | ']' :: r2 => some ([v], r2)
      | _ => none

/-- Object members separated by commas, ending at `}`. -/
def pFields : Nat → List Char → Option (List (List Char × JVal) × List Char)
  | 0, _ => none
  | fuel + 1, ts =>
    match skipWs ts with
    | '"' :: rest =>
      (match pStr (rest.length + 1) rest with
       | none => none
       | some (k, r1) =>
         match skipWs r1 with
         | ':' :: r2 =>
           (match pVal fuel r2 with
            | none => none
            | some (v, r3) =>
              match skipWs r3 with
              | ',' :: r4 => (pFields fuel r4).map fun p => ((k, v) :: p.1, p.2)
              | '}' :: r4 => some ([(k, v)], r4)
              | _ => none)
         | _ => none)
    | _ => none

end

/-- `JSON.parse`, restricted to the modelled fragment; `none` models a
thrown `SyntaxError`. -/
def jsonParse (text : String) : Option JVal :=
  match pVal (text.data.length + 1) text.data with
  | some (v, rest) => if skipWs rest = [] then some v else none
  | none => none

/-- The synthesized body of a structured-data module
(complie_swc.js line 413): `module.exports = ${JSON.stringify(jsonValue)};`. -/
def jsonAssignCode (v : JVal) : String :=
  "module.exports = " ++ String.mk (jsonStringify v) ++ ";"

/-! ## `patchImportMetaUrl` and the graph builder -/

/-- Literal global replace (scan left to right, restart after each
replacement). -/
def litGo (pat repl : List Char) : Nat → List Char → List Char
  | 0, s => s
  | _ + 1, [] => []
  | cnt + 1, c :: cs =>
    if litHere pat (c :: cs) then repl ++ litGo pat repl cnt ((c :: cs).drop pat.length)
    else c :: litGo pat repl cnt cs

/-- `patchImportMetaUrl` (complie_swc.js line 145):
`source.replace(/import\.meta\.url/g, ...)` - the pattern is fully
escaped, hence a literal global replace, and the replacement text
contains no `$`, so the substitution is literal too. -/
def patchImportMetaUrl (source : String) : String :=
  String.mk (litGo "import.meta.url".data
    (String.data "require(\"url\").pathToFileURL(__filename).href")
    (source.data.length + 1) source.data)

/-- One record of the in-memory bundle table
(`modules[id] = { filename, dirname, code }`). -/
structure MRec where
  filename : String
  dirname : String
  code : String
deriving DecidableEq, Repr

/-- The mutable build state of one `complie_swc` invocation: the module
table, the per-module dependency maps and the `visiting`/`visited`
sets. -/
structure BuildSt where
  modules : List (String × MRec)
  requireMaps : List (String × List (String × String))
  visiting : List String
  visited : List String
deriving DecidableEq, Repr

/-- The empty state created at the top of `complie_swc`. -/
def initSt : BuildSt := ⟨[], [], [], []⟩

/-- Result of a fueled build step: `fuel` is exhaustion of the embedding's
fuel (never the program's behavior - the termination theorems show enough
fuel always exists), `err` a thrown error, `ok` a result. -/
inductive Res (α : Type) where
  | fuel
  | err (e : BErr)
  | ok (v : α)
deriving DecidableEq, Repr

/-- The dependency-map construction loop of `loadModule` (complie_swc.js
lines 426-430): `map[spec] = normalizeId(resolveLocal(absPath, spec))`. -/
def buildMap (env : Env) (absPath : String) : List String → Except BErr (List (String × String))
  | [] => .ok []
  | spec :: rest =>
    match resolveLocal env absPath spec with
    | .error e => .error e
    | .ok resolved =>
      match buildMap env absPath rest with
      | .error e => .error e
      | .ok tail => .ok ((spec, normalizeId env resolved) :: tail)

/-- The `// Load deps first` loop (complie_swc.js lines 434-436),
parametrized by the recursive call it makes for each dependency. -/
def loadDeps (f : String → BuildSt → Res BuildSt) (env : Env) (absPath : String) :
    List String → BuildSt → Res BuildSt
  | [], st => .ok st
  | spec :: rest, st =>
    match resolveLocal env absPath spec with
    | .error e => .err e
    | .ok resolved =>
      match f resolved st with
      | .fuel => .fuel
      | .err e => .err e
      | .ok st2 => loadDeps f env absPath rest st2

/-- `loadModule` (complie_swc.js lines 400-449): depth-first load of one
module into the build state.  Fuel only bounds the recursion depth of the
embedding. -/
def loadModule (env : Env) : Nat → String → BuildSt → Res BuildSt
  | 0, _, _ => .fuel
  | fuel + 1, absPath, st =>
    let id := normalizeId env absPath
    if id ∈ st.visited then .ok st
    else if id ∈ st.visiting then .ok st
    else
      let st1 : BuildSt := { st with visiting := id :: st.visiting }
      if extnameLower absPath = ".json" then
        match env.readFile absPath with
        | .error e => .err e
        | .ok jsonText =>
          match jsonParse jsonText with
          | none => .err (.jsonBad absPath)
          | some v =>
            .ok { modules := st1.modules ++ [(id, ⟨absPath, env.dirname absPath, jsonAssignCode v⟩)],
                  requireMaps := st1.requireMaps ++ [(id, [])],
                  visiting := st1.visiting.erase id,
                  visited := st1.visited ++ [id] }
      else
        match env.readFile absPath with
        | .error e => .err e
        | .ok source0 =>
          let source := patchImportMetaUrl source0
          match parseForImports env absPath source with
          | .error e => .err e
          | .ok localImports =>
            match buildMap env absPath localImports with
            | .error e => .err e
            | .ok map =>
              let st2 := { st1 with requireMaps := st1.requireMaps ++ [(id, map)] }
              match loadDeps (loadModule env fuel) env absPath localImports st2 with
              | .fuel => .fuel
              | .err e => .err e
              | .ok st3 =>
                match env.transform absPath source with
                | .error e => .err e
                | .ok transformed =>
                  match rewriteLocalRequires transformed map with
                  | none => .err .regex
                  | some rewritten =>
                    .ok { st3 with
                          modules := st3.modules ++
                            [(id, ⟨absPath, env.dirname absPath, rewritten⟩)],
                          visited := st3.visited ++ [id],
                          visiting := st3.visiting.erase id }

/-- One serialized entry of the emitted `__dctc_modules` table
(complie_swc.js lines 455-461). -/
def wrapModule (id : String) (m : MRec) : String :=
  "\"" ++ String.mk (escapeForJsString id.data) ++ "\": \x7b filename: \"" ++
    String.mk (escapeForJsString m.filename.data) ++ "\", dirname: \"" ++
    String.mk (escapeForJsString m.dirname.data) ++
    "\", fn: function(module, exports, __dctc_require, require, __filename, __dirname) \x7b\n" ++
    m.code ++ "\n\x7d \x7d"

/-- The emitted bundle text (complie_swc.js lines 466-482). -/
def bundleText (moduleTable entryId : String) : String :=
  "(function () \x7b\n  \"use strict\";\n  var __dctc_modules = \x7b\n" ++ moduleTable ++
  "\n  \x7d;\n  var __dctc_cache = Object.create(null);\n  function __dctc_require(id) \x7b\n" ++
  "    if (__dctc_cache[id]) return __dctc_cache[id].exports;\n" ++
  "    var record = __dctc_modules[id];\n    if (!record) return require(id);\n" ++
  "    var module = \x7b exports: \x7b\x7d \x7d;\n    __dctc_cache[id] = module;\n" ++
  "    record.fn(module, module.exports, __dctc_require, require, record.filename, record.dirname);\n" ++
  "    return module.exports;\n  \x7d\n  __dctc_require(\"" ++ entryId ++ "\");\n\x7d)();"

/-- `complie_swc` (complie_swc.js lines 371-490): the whole bundler.  The
missing-entry `process.exit(1)` is modelled as the `missingEntry` error;
the `catch` block logs and re-raises the original error, so errors pass
through unchanged. -/
def complie_swc (env : Env) (fuel : Nat) (filePath : String) : Res String :=
  if env.existsSync filePath = false then .err (.missingEntry filePath)
  else
    let entryAbs := env.resolveOne filePath
    match loadModule env fuel entryAbs initSt with
    | .fuel => .fuel
    | .err e => .err e
    | .ok st =>
      let moduleTable := String.intercalate ",\n" (st.modules.map fun p => wrapModule p.1 p.2)
      let entryId := String.mk (escapeForJsString (normalizeId env entryAbs).data)
      .ok (bundleText moduleTable entryId)

/-! ## The emitted runtime loader

The emitted `__dctc_require` (complie_swc.js lines 472-480) executes
module bodies whose code is a string; a body's observable effect on the
loader is the sequence of `__dctc_require` calls it makes plus its
assignments to `module.exports`.  A body is therefore modelled as a list
of those operations; the exports container of each module object lives in
a heap of slots so that reference identity is observable. -/

/-- A runtime value as far as the loader can distinguish: a fresh exports
container (with its identity), a structured value assigned to
`module.exports`, or whatever the host `require` returned. -/
inductive RVal where
  | container (slot : Nat)
  | json (v : JVal)
  | hostVal (id : String)

/-- One observable step of a module body. -/
inductive BodyOp where
  | require (id : String)
  | assign (v : RVal)

/-- A record of the emitted module table, reduced to its body's
observable behavior. -/
structure RtRec where
  body : List BodyOp

/-- Loader state: `__dctc_cache` (id to module-object slot), the heap of
module objects (each slot holds the current `module.exports`), and a
ghost trace of the bodies that have been executed, in order. -/
structure RtSt where
  cache : List (String × Nat)
  heap : List RVal
  trace : List String

def initRt : RtSt := ⟨[], [], []⟩

/-- Read `__dctc_cache[id].exports` for slot `slot`. -/
def heapGet (st : RtSt) (slot : Nat) : RVal :=
  st.heap.getD slot (.hostVal "")

/-- Execute a module body: its requires recurse into the loader (the
function passed as `f`), its assignments update the module object's
exports slot. -/
def runBody (f : String → RtSt → Option (RVal × RtSt)) : List BodyOp → Nat → RtSt → Option RtSt
  | [], _, st => some st
  | op :: rest, slot, st =>
    match op with
    | .require d =>
      (match f d st with
       | none => none
       | some (_, st2) => runBody f rest slot st2)
    | .assign v =>
      runBody f rest slot { st with heap := st.heap.set slot v }

/-- `__dctc_require`: cache hit returns the cached module's exports; an
id absent from the table goes to host `require`; otherwise a fresh module
object is created, registered in the cache, its body executed, and its
(possibly reassigned) exports returned. -/
def dctcRequire (table : List (String × RtRec)) : Nat → String → RtSt → Option (RVal × RtSt)
  | 0, _, _ => none
  | fuel + 1, id, st =>
    match st.cache.lookup id with
    | some slot => some (heapGet st slot, st)
    | none =>
      match table.lookup id with
      | none => some (.hostVal id, st)
      | some r =>
        let slot := st.heap.length
        let st1 : RtSt := { cache := (id, slot) :: st.cache,
                            heap := st.heap ++ [.container slot],
                            trace := st.trace ++ [id] }
        match runBody (dctcRequire table fuel) r.body slot st1 with
        | none => none
        | some st2 => some (heapGet st2 slot, st2)

/-- The runtime denotation of a synthesized structured-data body: a code
string of the exact shape `module.exports = <json literal>;` evaluates,
in the VM, to a single assignment of the parsed literal. Modelled from
the spec: the sandboxed execution harness that runs the produced unit is
outside `src/`. -/
def denoteJsonBody (code : String) : Option (List BodyOp) :=
  if litHere "module.exports = ".data code.data then
    let rest := code.data.drop 17
    match rest.reverse with
    | ';' :: revMid =>
      (match jsonParse (String.mk revMid.reverse) with
       | some v => some [.assign (.json v)]
       | none => none)
    | _ => none
  else none

/-! ## Reference notions used by the theorems -/

/-- An "escape-item stream": each item renders as either a raw character
or a backslash-escaped one.  The patterns both rewriters build are
streams of such items (after the leading `\b`). -/
def renderItems : List (Bool × Char) → List Char
  | [] => []
  | (true, c) :: rest => '\\' :: c :: renderItems rest
  | (false, c) :: rest => c :: renderItems rest

def itemChars (items : List (Bool × Char)) : List Char :=
  items.map Prod.snd

/-- Items whose parse is a single-character literal: raw characters must
not be metacharacters, escaped ones must not be `b` (which would be a
word-boundary assertion). -/
def goodItem : Bool × Char → Bool
  | (true, c) => c != 'b'
  | (false, c) => !isRegexMeta c

/-- The item stream `escapeForRegex` produces: metacharacters escaped,
the rest raw. -/
def specItems (spec : List Char) : List (Bool × Char) :=
  spec.map fun c => (isRegexMeta c, c)

/-- The item stream `escapeForJsString` produces on a metacharacter-free
specifier: double quotes escaped, the rest raw. -/
def jsItemsD (spec : List Char) : List (Bool × Char) :=
  spec.map fun c => (c = '"', c)

/-- The item stream `sqEscape ∘ escapeForJsString` produces on a
metacharacter-free specifier: double quotes and apostrophes escaped. -/
def jsItemsS (spec : List Char) : List (Bool × Char) :=
  spec.map fun c => (c = '"' || c = sq, c)

/-- Items of the fixed prefix `require\("` of the SWC double-quote
pattern. -/
def preD : List (Bool × Char) :=
  [(false, 'r'), (false, 'e'), (false, 'q'), (false, 'u'), (false, 'i'), (false, 'r'),
   (false, 'e'), (true, '('), (false, '"')]

def sufD : List (Bool × Char) := [(false, '"'), (true, ')')]

def preS : List (Bool × Char) :=
  [(false, 'r'), (false, 'e'), (false, 'q'), (false, 'u'), (false, 'i'), (false, 'r'),
   (false, 'e'), (true, '('), (false, sq)]

def sufS : List (Bool × Char) := [(false, sq), (true, ')')]

/-- Items of the fixed prefix `require\(\"` of the esbuild double-quote
pattern. -/
def preDE : List (Bool × Char) :=
  [(false, 'r'), (false, 'e'), (false, 'q'), (false, 'u'), (false, 'i'), (false, 'r'),
   (false, 'e'), (true, '('), (true, '"')]

def sufDE : List (Bool × Char) := [(true, '"'), (true, ')')]

def preSE : List (Bool × Char) :=
  [(false, 'r'), (false, 'e'), (false, 'q'), (false, 'u'), (false, 'i'), (false, 'r'),
   (false, 'e'), (true, '('), (true, sq)]

def sufSE : List (Bool × Char) := [(true, sq), (true, ')')]

/-- The literal text of a double-quoted require call site. -/
def dqCall (spec : List Char) : List Char :=
  ['r', 'e', 'q', 'u', 'i', 'r', 'e', '(', '"'] ++ spec ++ ['"', ')']

/-- The literal text of a single-quoted require call site. -/
def sqCall (spec : List Char) : List Char :=
  ['r', 'e', 'q', 'u', 'i', 'r', 'e', '(', sq] ++ spec ++ [sq, ')']

/-- Does the boundary-guarded literal pattern match at position `i`? -/
def bMatch (s pat : List Char) (i : Nat) : Bool :=
  wordBoundaryAt s i && litAt s i pat

/-- First position `p ≥ i` (within `cnt` steps) where the
boundary-guarded literal pattern matches. -/
def firstHit (s pat : List Char) : Nat → Nat → Option Nat
  | _, 0 => none
  | i, cnt + 1 =>
    if bMatch s pat i then some i
    else if i < s.length then firstHit s pat (i + 1) cnt else none

/-- Reference scanner: replace every boundary-guarded occurrence of the
literal `pat` by `repl`, scanning left to right and resuming after each
replacement. -/
def bReplGo (s pat repl : List Char) : Nat → Nat → List Char
  | _, 0 => []
  | pos, cnt + 1 =>
    match s.get? pos with
    | none => []
    | some c =>
      if bMatch s pat pos then repl ++ bReplGo s pat repl (pos + pat.length) cnt
      else c :: bReplGo s pat repl (pos + 1) cnt

/-- Whole-string boundary-guarded literal replacement. -/
def bReplaceAll (s pat repl : List Char) : List Char :=
  bReplGo s pat repl 0 (s.length + 1)

/-- What one dependency-map entry is specified to do to the code: replace
every word-boundary-guarded `require("spec")`, then every
`require('spec')`, by `__dctc_require("<escaped id>")`. -/
def rwPair (code spec id : List Char) : List Char :=
  let repl := dctcCall (escapeForJsString id)
  bReplaceAll (bReplaceAll code (dqCall spec) repl) (sqCall spec) repl

/-- The specified effect of the whole rewriter: fold `rwPair` over the
dependency map in order. -/
def rwFoldRef (code : List Char) (entries : List (List Char × List Char)) : List Char :=
  entries.foldl (fun c p => rwPair c p.1 p.2) code

/-! ## Graph-level view of the build -/

/-- The resolution loop over a module's local specifiers, yielding the
resolved absolute paths. -/
def resolveAll (env : Env) (absPath : String) : List String → Except BErr (List String)
  | [] => .ok []
  | spec :: rest =>
    match resolveLocal env absPath spec with
    | .error e => .error e
    | .ok resolved =>
      match resolveAll env absPath rest with
      | .error e => .error e
      | .ok tail => .ok (resolved :: tail)

/-- The resolved local dependencies of one module, by the same steps
`loadModule` performs (read, patch, parse, collect, filter, resolve);
`.json` files are terminal. -/
def moduleDeps (env : Env) (absPath : String) : Except BErr (List String) :=
  if extnameLower absPath = ".json" then
    match env.readFile absPath with
    | .error e => .error e
    | .ok t =>
      (match jsonParse t with
       | none => .error (.jsonBad absPath)
       | some _ => .ok [])
  else
    match env.readFile absPath with
    | .error e => .error e
    | .ok source0 =>
      match parseForImports env absPath (patchImportMetaUrl source0) with
      | .error e => .error e
      | .ok localImports => resolveAll env absPath localImports

/-- The dependency edges of the build graph (empty on failure). -/
def depsOf (env : Env) (p : String) : List String :=
  match moduleDeps env p with
  | .ok l => l
  | .error _ => []

/-- Reachability from the entry along resolved local dependencies. -/
inductive Reach (env : Env) (root : String) : String → Prop where
  | refl : Reach env root root
  | step {a b : String} : Reach env root a → b ∈ depsOf env a → Reach env root b

/-- Does the transform step succeed on this module's (patched) source? -/
def transformOkB (env : Env) (p : String) : Bool :=
  match env.readFile p with
  | .error _ => false
  | .ok source0 =>
    (match env.transform p (patchImportMetaUrl source0) with
     | .ok _ => true
     | .error _ => false)

/-- One module of the universe is well-formed: its dependency extraction
and resolution succeed and stay inside `U`, its path is already
normalized, and (for non-JSON files) its transform succeeds. -/
def moduleOkB (env : Env) (U : List String) (p : String) : Bool :=
  (match moduleDeps env p with
   | .ok deps => deps.all fun d => U.contains d
   | .error _ => false) &&
  (env.resolveOne p == p) &&
  (extnameLower p == ".json" || transformOkB env p)

/-- Every module of the finite universe `U` is well-formed. -/
def envOkB (env : Env) (U : List String) : Bool :=
  U.all (moduleOkB env U)

/-- The build-state invariant maintained by `loadModule`: the table keys
are exactly the visited list (in completion order, hence without
duplicates), both sets live inside the universe and are disjoint, every
visited module's dependencies are visited or on the current path, and
every recorded dependency map holds only local specifiers. -/
def Inv (env : Env) (U : List String) (st : BuildSt) : Prop :=
  st.modules.map Prod.fst = st.visited ∧
  st.visited.Nodup ∧
  (∀ p ∈ st.visited, p ∈ U) ∧
  (∀ p ∈ st.visiting, p ∈ U) ∧
  (∀ p ∈ st.visited, p ∉ st.visiting) ∧
  (∀ p ∈ st.visited, ∀ d ∈ depsOf env p, d ∈ st.visited ∨ d ∈ st.visiting) ∧
  (∀ e ∈ st.requireMaps, ∀ pr ∈ e.2, isLocalSpecifier pr.1 = true)

/-- Every recorded dependency map holds only local specifiers. -/
def MapsLocal (st : BuildSt) : Prop :=
  ∀ e ∈ st.requireMaps, ∀ pr ∈ e.2, isLocalSpecifier pr.1 = true

/-- Universe modules not in `vis`. -/
def freeOf (U vis : List String) : Nat :=
  (U.filter fun p => decide (p ∉ vis)).length

/-- The number of universe modules not currently on the recursion path:
the measure that bounds the fuel `loadModule` needs. -/
def freeCount (U : List String) (st : BuildSt) : Nat :=
  freeOf U st.visiting

/-! ## Concrete witness environments -/

/-- A filesystem on which both `/d/x.ts` and `/d/x.tsx` exist. -/
def wFs : Fsys :=
  ⟨fun p => p = "/d/x.ts" || p = "/d/x.tsx", fun _ => false⟩

/-- A witness environment whose entry `/m.ts` imports `./x`, with both
`/d/x.ts` and `/d/x.tsx` present. -/
def wEnvR : Env where
  existsSync := fun p => p = "/d/m.ts"
  fsys := wFs
  readFile := fun p => .error (.io p)
  parseAst := fun _ _ => .ok (.node [])
  transform := fun _ _ => .ok ""
  dirname := fun p => if p = "/d/m.ts" then "/d" else "/"
  resolvePath := fun base spec => if base = "/d" && spec = "./x" then "/d/x" else "/nope"
  resolveOne := fun p => p

/-- Acyclic two-module witness environment: `/m.ts` imports `./u`,
resolved to `/u.ts`. -/
def envA : Env where
  existsSync := fun p => p = "/m.ts"
  fsys := ⟨fun p => p = "/m.ts" || p = "/u.ts", fun _ => false⟩
  readFile := fun p =>
    if p = "/m.ts" then .ok "import u from \"./u\";"
    else if p = "/u.ts" then .ok "export default 1;"
    else .error (.io p)
  parseAst := fun p _ =>
    if p = "/m.ts" then .ok (.node [.importDecl (some (.strLit "./u")) []])
    else .ok (.node [])
  transform := fun p _ =>
    .ok (if p = "/m.ts" then "const u = require(\"./u\");" else "module.exports = 1;")
  dirname := fun _ => "/"
  resolvePath := fun base spec => if base = "/" && spec = "./u" then "/u" else "/none"
  resolveOne := fun p => p

def UA : List String := ["/m.ts", "/u.ts"]

/-- The build state `loadModule envA` produces from the entry `/m.ts`. -/
def stA : BuildSt :=
  { modules := [("/u.ts", ⟨"/u.ts", "/", "module.exports = 1;"⟩),
      ("/m.ts", ⟨"/m.ts", "/", "const u = __dctc_require(\"/u.ts\");"⟩)],
    requireMaps := [("/m.ts", [("./u", "/u.ts")]), ("/u.ts", [])],
    visiting := [],
    visited := ["/u.ts", "/m.ts"] }

/-- Cyclic two-module witness environment: `/a.ts` imports `./b`, and
`/b.ts` imports `./a`. -/
def envB : Env where
  existsSync := fun p => p = "/a.ts"
  fsys := ⟨fun p => p = "/a.ts" || p = "/b.ts", fun _ => false⟩
  readFile := fun p =>
    if p = "/a.ts" then .ok "import b from \"./b\";"
    else if p = "/b.ts" then .ok "import a from \"./a\";"
    else .error (.io p)
  parseAst := fun p _ =>
    if p = "/a.ts" then .ok (.node [.importDecl (some (.strLit "./b")) []])
    else if p = "/b.ts" then .ok (.node [.importDecl (some (.strLit "./a")) []])
    else .ok (.node [])
  transform := fun p _ =>
    .ok (if p = "/a.ts" then "const b = require(\"./b\");" else "const a = require(\"./a\");")
  dirname := fun _ => "/"
  resolvePath := fun base spec =>
    if base = "/" && spec = "./b" then "/b"
    else if base = "/" && spec = "./a" then "/a"
    else "/none"
  resolveOne := fun p => p

def UB : List String := ["/a.ts", "/b.ts"]

/-- Witness environment with a dangling import: `/m.ts` imports `./nope`
and no candidate file exists. -/
def envC : Env where
  existsSync := fun p => p = "/m.ts"
  fsys := ⟨fun p => p = "/m.ts", fun _ => false⟩
  readFile := fun p =>
    if p = "/m.ts" then .ok "import n from \"./nope\";" else .error (.io p)
  parseAst := fun p _ =>
    if p = "/m.ts" then .ok (.node [.importDecl (some (.strLit "./nope")) []])
    else .ok (.node [])
  transform := fun _ _ => .ok ""
  dirname := fun _ => "/"
  resolvePath := fun base spec => if base = "/" && spec = "./nope" then "/nope" else "/none"
  resolveOne := fun p => p

/-- Witness environment with a structured-data dependency: `/m.ts`
imports `./d.json`. -/
def envD : Env where
  existsSync := fun p => p = "/m.ts"
  fsys := ⟨fun p => p = "/m.ts" || p = "/d.json", fun _ => false⟩
  readFile := fun p =>
    if p = "/m.ts" then .ok "import d from \"./d.json\";"
    else if p = "/d.json" then .ok "\x7b\"k\": [1, true]\x7d"
    else .error (.io p)
  parseAst := fun p _ =>
    if p = "/m.ts" then .ok (.node [.importDecl (some (.strLit "./d.json")) []])
    else .ok (.node [])
  transform := fun p _ =>
    .ok (if p = "/m.ts" then "const d = require(\"./d.json\");" else "")
  dirname := fun _ => "/"
  resolvePath := fun base spec => if base = "/" && spec = "./d.json" then "/d.json" else "/none"
  resolveOne := fun p => p

def UD : List String := ["/m.ts", "/d.json"]

/- ### theorems -/

/-- **C2.** The resolver tries, in order: the exact path; the path plus
each extension in the fixed priority `.ts, .tsx, .js, .jsx, .json`; and,
if the path is a directory, `path/index` plus each extension in the same
order - returning the first candidate that exists as a file.  In
particular, when both `x.ts` and `x.tsx` exist for a relative specifier,
`resolveLocal` deterministically picks the `.ts` file. -/
theorem c2_resolution_order :
    (∀ (fs : Fsys) (basePath : String),
      resolveWithExt fs basePath = (resolveCandidates fs basePath).find? fs.fileExists) ∧
    (∀ (env : Env) (fromFile spec : String),
      startsWithSlash spec = false →
      env.fsys.fileExists (env.resolvePath (env.dirname fromFile) spec) = false →
      env.fsys.fileExists (env.resolvePath (env.dirname fromFile) spec ++ ".ts") = true →
      env.fsys.fileExists (env.resolvePath (env.dirname fromFile) spec ++ ".tsx") = true →
      resolveLocal env fromFile spec =
        .ok (env.resolvePath (env.dirname fromFile) spec ++ ".ts")) := by
  constructor
  · intro fs basePath
    unfold resolveWithExt resolveCandidates LOCAL_EXTS
    cases h0 : fs.fileExists basePath <;>
      simp [List.find?, h0] <;>
      cases h1 : fs.fileExists (basePath ++ ".ts") <;>
      cases h2 : fs.fileExists (basePath ++ ".tsx") <;>
      cases h3 : fs.fileExists (basePath ++ ".js") <;>
      cases h4 : fs.fileExists (basePath ++ ".jsx") <;>
      cases h5 : fs.fileExists (basePath ++ ".json") <;>
      cases hd : fs.dirExists basePath <;>
      simp [List.find?, h1, h2, h3, h4, h5, hd]
  · intro env fromFile spec hrel h0 hts _htsx
    simp only [resolveLocal, hrel, Bool.false_eq_true, if_false]
    unfold resolveWithExt LOCAL_EXTS
    rw [if_neg (by simp [h0])]
    simp [List.find?, hts]

/-- Witness for C2 at a concrete filesystem and environment. -/
theorem c2_witness :
    resolveWithExt wFs "/d/x" = (resolveCandidates wFs "/d/x").find? wFs.fileExists ∧
    resolveLocal wEnvR "/d/m.ts" "./x" = .ok "/d/x.ts" :=
  ⟨c2_resolution_order.1 wFs "/d/x",
   c2_resolution_order.2 wEnvR "/d/m.ts" "./x" (by decide) (by decide) (by decide) (by decide)⟩



theorem quantOf_renderItems : ∀ items : List (Bool × Char), (∀ it ∈ items, goodItem it) →
    quantOf (renderItems items) = none := by
  intro items h
  match items with
  | [] => rfl
  | (true, c) :: rest => simp [renderItems, quantOf]
  | (false, c) :: rest =>
    have hc := h (false, c) (by simp)
    simp [goodItem, isRegexMeta] at hc
    simp [renderItems, quantOf, hc]

theorem parseAtom_esc (fuel : Nat) (c : Char) (rest : List Char) (h : c ≠ 'b') :
    parseAtom (fuel + 1) ('\\' :: c :: rest) = some (.lit c, rest) := by
  simp [parseAtom, h]

theorem parseAtom_raw (fuel : Nat) (c : Char) (rest : List Char) (h : isRegexMeta c = false) :
    parseAtom (fuel + 1) (c :: rest) = some (.lit c, rest) := by
  simp [isRegexMeta] at h
  simp [parseAtom, h]



theorem parseSeq_items : ∀ (items : List (Bool × Char)), (∀ it ∈ items, goodItem it) →
    ∀ (fuel : Nat) (acc : List Re), items.length + 1 ≤ fuel →
    parseSeq fuel (renderItems items) acc = some (acc.reverse ++ lits (itemChars items), []) := by
  intro items
  induction items with
  | nil =>
    intro _ fuel acc hf
    obtain ⟨f, rfl⟩ : ∃ f, fuel = f + 1 := ⟨fuel - 1, by omega⟩
    simp [renderItems, parseSeq, itemChars, lits]
  | cons it rest ih =>
    intro h fuel acc hf
    simp only [List.length_cons] at hf
    obtain ⟨f, rfl⟩ : ∃ f, fuel = f + 1 := ⟨fuel - 1, by omega⟩
    obtain ⟨g, rfl⟩ : ∃ g, f = g + 1 := ⟨f - 1, by omega⟩
    have hrest : ∀ it ∈ rest, goodItem it := fun x hx => h x (by simp [hx])
    have hq : quantOf (renderItems rest) = none := quantOf_renderItems rest hrest
    obtain ⟨esc, c⟩ := it
    have hgood : goodItem (esc, c) := h (esc, c) (by simp)
    cases esc with
    | true =>
      have hcb : c ≠ 'b' := by simpa [goodItem] using hgood
      show parseSeq (g + 1 + 1) ('\\' :: c :: renderItems rest) acc = _
      rw [parseSeq]
      rw [if_neg (by decide)]
      rw [parseAtom_esc g c _ hcb]
      show (match applyQuant (Re.lit c) (renderItems rest) with
        | none => none
        | some (a2, r2) => parseSeq (g+1) r2 (a2 :: acc)) = _
      rw [applyQuant, hq]
      show parseSeq (g+1) (renderItems rest) (Re.lit c :: acc) = _
      rw [ih hrest (g+1) (Re.lit c :: acc) (by omega)]
      simp [itemChars, lits]
    | false =>
      have hcm : isRegexMeta c = false := by simpa [goodItem] using hgood
      have hcnp : ¬(c = ')' || c = '|') = true := by
        simp [isRegexMeta] at hcm
        simp [hcm]
      show parseSeq (g + 1 + 1) (c :: renderItems rest) acc = _
      rw [parseSeq]
      rw [if_neg hcnp]
      rw [parseAtom_raw g c _ hcm]
      show (match applyQuant (Re.lit c) (renderItems rest) with
        | none => none
        | some (a2, r2) => parseSeq (g+1) r2 (a2 :: acc)) = _
      rw [applyQuant, hq]
      show parseSeq (g+1) (renderItems rest) (Re.lit c :: acc) = _
      rw [ih hrest (g+1) (Re.lit c :: acc) (by omega)]
      simp [itemChars, lits]



theorem renderItems_append (a b : List (Bool × Char)) :
    renderItems (a ++ b) = renderItems a ++ renderItems b := by
  induction a with
  | nil => rfl
  | cons it rest ih =>
    obtain ⟨esc, c⟩ := it
    cases esc <;> simp [renderItems, ih]

theorem length_le_renderItems (items : List (Bool × Char)) :
    items.length ≤ (renderItems items).length := by
  induction items with
  | nil => simp [renderItems]
  | cons it rest ih =>
    obtain ⟨esc, c⟩ := it
    cases esc <;> simp [renderItems] <;> omega

theorem parseSeq_wordB (items : List (Bool × Char)) (h : ∀ it ∈ items, goodItem it)
    (fuel : Nat) (acc : List Re) (hf : items.length + 2 ≤ fuel) :
    parseSeq fuel ('\\' :: 'b' :: renderItems items) acc =
      some (acc.reverse ++ Re.wordB :: lits (itemChars items), []) := by
  obtain ⟨f, rfl⟩ : ∃ f, fuel = f + 1 := ⟨fuel - 1, by omega⟩
  obtain ⟨g, rfl⟩ : ∃ g, f = g + 1 := ⟨f - 1, by omega⟩
  rw [parseSeq]
  rw [if_neg (by decide)]
  have hb : parseAtom (g + 1) ('\\' :: 'b' :: renderItems items) = some (.wordB, renderItems items) := by
    simp [parseAtom]
  rw [hb]
  show (match applyQuant Re.wordB (renderItems items) with
    | none => none
    | some (a2, r2) => parseSeq (g+1) r2 (a2 :: acc)) = _
  rw [applyQuant, quantOf_renderItems items h]
  show parseSeq (g+1) (renderItems items) (Re.wordB :: acc) = _
  rw [parseSeq_items items h (g+1) _ (by omega)]
  simp

theorem parseRe_wordB_items (items : List (Bool × Char)) (h : ∀ it ∈ items, goodItem it) :
    parseRe ('\\' :: 'b' :: renderItems items) =
      some (seqify (Re.wordB :: lits (itemChars items))) := by
  rw [parseRe]
  have hlen := length_le_renderItems items
  have hFe : 4 * ('\\' :: 'b' :: renderItems items).length + 8 =
      (4 * (renderItems items).length + 15) + 1 := by
    simp [List.length_cons]; omega
  rw [hFe]
  rw [parseAlt]
  rw [parseSeq_wordB items h _ [] (by omega)]
  simp



theorem itemChars_mk (f : Char → Bool) (spec : List Char) :
    itemChars (spec.map fun c => (f c, c)) = spec := by
  simp [itemChars, List.map_map]
  exact List.map_id spec

theorem itemChars_append (a b : List (Bool × Char)) :
    itemChars (a ++ b) = itemChars a ++ itemChars b := by
  simp [itemChars]

theorem renderItems_specItems (spec : List Char) :
    renderItems (specItems spec) = escapeForRegex spec := by
  induction spec with
  | nil => rfl
  | cons c rest ih =>
    cases hm : isRegexMeta c <;>
      simp [specItems, renderItems, escapeForRegex, hm, ih] <;>
      simpa [specItems] using ih

theorem goodItems_specItems (spec : List Char) : ∀ it ∈ specItems spec, goodItem it := by
  intro it hit
  simp [specItems] at hit
  obtain ⟨c, _, rfl⟩ := hit
  cases hm : isRegexMeta c with
  | false => simp [goodItem, hm]
  | true =>
    simp [goodItem]
    intro hcb
    rw [hcb] at hm
    exact absurd hm (by decide)

theorem goodItems_preD : ∀ it ∈ preD, goodItem it := by decide
theorem goodItems_sufD : ∀ it ∈ sufD, goodItem it := by decide



theorem goodItems_fix : (∀ it ∈ preD, goodItem it) ∧ (∀ it ∈ sufD, goodItem it) ∧
    (∀ it ∈ preS, goodItem it) ∧ (∀ it ∈ sufS, goodItem it) ∧
    (∀ it ∈ preDE, goodItem it) ∧ (∀ it ∈ sufDE, goodItem it) ∧
    (∀ it ∈ preSE, goodItem it) ∧ (∀ it ∈ sufSE, goodItem it) := by
  refine ⟨?_, ?_, ?_, ?_, ?_, ?_, ?_, ?_⟩ <;>
    · intro it hit
      fin_cases hit <;> decide

theorem parseRe_patDouble (spec : List Char) :
    parseRe (patDouble (escapeForRegex spec)) =
      some (seqify (Re.wordB :: lits (dqCall spec))) := by
  have he : patDouble (escapeForRegex spec) =
      '\\' :: 'b' :: renderItems (preD ++ specItems spec ++ sufD) := by
    rw [renderItems_append, renderItems_append, renderItems_specItems]
    rfl
  rw [he]
  rw [parseRe_wordB_items _ (by
    intro it hit
    simp [List.mem_append] at hit
    rcases hit with h | h | h
    · exact goodItems_fix.1 it h
    · exact goodItems_specItems spec it h
    · exact goodItems_fix.2.1 it h)]
  rw [itemChars_append, itemChars_append]
  rw [show itemChars (specItems spec) = spec from itemChars_mk _ spec]
  rfl



theorem parseRe_patSingle (spec : List Char) :
    parseRe (patSingle (escapeForRegex spec)) =
      some (seqify (Re.wordB :: lits (sqCall spec))) := by
  have he : patSingle (escapeForRegex spec) =
      '\\' :: 'b' :: renderItems (preS ++ specItems spec ++ sufS) := by
    rw [renderItems_append, renderItems_append, renderItems_specItems]
    rfl
  rw [he]
  rw [parseRe_wordB_items _ (by
    intro it hit
    simp [List.mem_append] at hit
    rcases hit with h | h | h
    · exact goodItems_fix.2.2.1 it h
    · exact goodItems_specItems spec it h
    · exact goodItems_fix.2.2.2.1 it h)]
  rw [itemChars_append, itemChars_append]
  rw [show itemChars (specItems spec) = spec from itemChars_mk _ spec]
  rfl

theorem jsEsc_items (spec : List Char) (hm : ∀ c ∈ spec, isRegexMeta c = false) :
    escapeForJsString spec = renderItems (jsItemsD spec) := by
  induction spec with
  | nil => rfl
  | cons c rest ih =>
    have hc : isRegexMeta c = false := hm c (by simp)
    have hbs : c ≠ '\\' := by
      intro h
      rw [h] at hc
      exact absurd hc (by decide)
    have ih2 := ih fun d hd => hm d (by simp [hd])
    by_cases hq : c = '"'
    · subst hq
      simp [escapeForJsString, jsItemsD, renderItems, ih2]
    · simp [escapeForJsString, jsItemsD, renderItems, hbs, hq, ih2]

theorem sqEsc_jsEsc_items (spec : List Char) (hm : ∀ c ∈ spec, isRegexMeta c = false) :
    sqEscape (escapeForJsString spec) = renderItems (jsItemsS spec) := by
  induction spec with
  | nil => rfl
  | cons c rest ih =>
    have hc : isRegexMeta c = false := hm c (by simp)
    have hbs : c ≠ '\\' := by
      intro h
      rw [h] at hc
      exact absurd hc (by decide)
    have ih2 := ih fun d hd => hm d (by simp [hd])
    by_cases hq : c = '"'
    · subst hq
      simp [escapeForJsString, sqEscape, jsItemsS, renderItems, ih2,
        show ('\\' : Char) ≠ sq by decide, show ('"' : Char) ≠ sq by decide,
        show ('"' : Char) = '"' by rfl]
    · by_cases hs : c = sq
      · subst hs
        simp [escapeForJsString, sqEscape, jsItemsS, renderItems, ih2,
          show sq ≠ '\\' by decide, show sq ≠ '"' by decide]
      · simp [escapeForJsString, sqEscape, jsItemsS, renderItems, hbs, hq, hs, ih2]



theorem goodItems_jsItemsD (spec : List Char) (hm : ∀ c ∈ spec, isRegexMeta c = false) :
    ∀ it ∈ jsItemsD spec, goodItem it := by
  intro it hit
  simp [jsItemsD] at hit
  obtain ⟨c, hc, rfl⟩ := hit
  by_cases hq : c = '"'
  · subst hq; decide
  · simp [goodItem, hq, hm c hc]

theorem goodItems_jsItemsS (spec : List Char) (hm : ∀ c ∈ spec, isRegexMeta c = false) :
    ∀ it ∈ jsItemsS spec, goodItem it := by
  intro it hit
  simp [jsItemsS] at hit
  obtain ⟨c, hc, rfl⟩ := hit
  by_cases hq : c = '"'
  · subst hq; decide
  · by_cases hs : c = sq
    · subst hs; decide
    · simp [goodItem, hq, hs, hm c hc]

theorem parseRe_patDoubleEsb (spec : List Char) (hm : ∀ c ∈ spec, isRegexMeta c = false) :
    parseRe (patDoubleEsb (escapeForJsString spec)) =
      some (seqify (Re.wordB :: lits (dqCall spec))) := by
  have he : patDoubleEsb (escapeForJsString spec) =
      '\\' :: 'b' :: renderItems (preDE ++ jsItemsD spec ++ sufDE) := by
    rw [renderItems_append, renderItems_append, ← jsEsc_items spec hm]
    rfl
  rw [he]
  rw [parseRe_wordB_items _ (by
    intro it hit
    simp [List.mem_append] at hit
    rcases hit with h | h | h
    · exact goodItems_fix.2.2.2.2.1 it h
    · exact goodItems_jsItemsD spec hm it h
    · exact goodItems_fix.2.2.2.2.2.1 it h)]
  rw [itemChars_append, itemChars_append]
  rw [show itemChars (jsItemsD spec) = spec from itemChars_mk _ spec]
  rfl

theorem parseRe_patSingleEsb (spec : List Char) (hm : ∀ c ∈ spec, isRegexMeta c = false) :
    parseRe (patSingleEsb (sqEscape (escapeForJsString spec))) =
      some (seqify (Re.wordB :: lits (sqCall spec))) := by
  have he : patSingleEsb (sqEscape (escapeForJsString spec)) =
      '\\' :: 'b' :: renderItems (preSE ++ jsItemsS spec ++ sufSE) := by
    rw [renderItems_append, renderItems_append, ← sqEsc_jsEsc_items spec hm]
    rfl
  rw [he]
  rw [parseRe_wordB_items _ (by
    intro it hit
    simp [List.mem_append] at hit
    rcases hit with h | h | h
    · exact goodItems_fix.2.2.2.2.2.2.1 it h
    · exact goodItems_jsItemsS spec hm it h
    · exact goodItems_fix.2.2.2.2.2.2.2 it h)]
  rw [itemChars_append, itemChars_append]
  rw [show itemChars (jsItemsS spec) = spec from itemChars_mk _ spec]
  rfl




theorem litAt_nil2 (s : List Char) (i : Nat) : litAt s i [] = true := rfl

theorem drop_cons_get? (s : List Char) (i : Nat) (y : Char) (ys : List Char)
    (h : s.drop i = y :: ys) : s.get? i = some y ∧ s.drop (i + 1) = ys := by
  refine ⟨?_, ?_⟩
  · rw [List.get?_eq_getElem?, ← List.head?_drop, h]
    rfl
  · rw [← List.tail_drop, h]
    rfl

theorem drop_nil_get? (s : List Char) (i : Nat) (h : s.drop i = []) : s.get? i = none := by
  rw [List.get?_eq_getElem?, ← List.head?_drop, h]
  rfl

theorem litAt_cons (s : List Char) (i : Nat) (c : Char) (cs : List Char) :
    litAt s i (c :: cs) = true ↔ (s.get? i = some c ∧ litAt s (i + 1) cs = true) := by
  unfold litAt
  cases h : s.drop i with
  | nil =>
    rw [drop_nil_get? s i h]
    simp [litHere]
  | cons y ys =>
    obtain ⟨hg, hd⟩ := drop_cons_get? s i y ys h
    rw [hg, hd]
    simp only [litHere, Bool.and_eq_true, decide_eq_true_eq, Option.some_inj]
    constructor
    · rintro ⟨rfl, h2⟩
      exact ⟨rfl, h2⟩
    · rintro ⟨rfl, h2⟩
      exact ⟨rfl, h2⟩



theorem mtch_lits (cs : List Char) : ∀ (fuel : Nat) (s : List Char) (i : Nat)
    (k : Nat → Option Nat), cs.length + 1 ≤ fuel →
    mtch fuel (seqify (lits cs)) s i k =
      if litAt s i cs then k (i + cs.length) else none := by
  induction cs with
  | nil =>
    intro fuel s i k hf
    obtain ⟨f, rfl⟩ : ∃ f, fuel = f + 1 := ⟨fuel - 1, by omega⟩
    simp [lits, seqify, mtch, litAt_nil2]
  | cons c rest ih =>
    intro fuel s i k hf
    simp only [List.length_cons] at hf
    obtain ⟨f, rfl⟩ : ∃ f, fuel = f + 1 := ⟨fuel - 1, by omega⟩
    obtain ⟨g, rfl⟩ : ∃ g, f = g + 1 := ⟨f - 1, by omega⟩
    show mtch (g + 1 + 1) (Re.cat (Re.lit c) (seqify (lits rest))) s i k = _
    rw [mtch]
    show mtch (g + 1) (Re.lit c) s i _ = _
    rw [mtch]
    cases hg : s.get? i with
    | none =>
      have : litAt s i (c :: rest) = false := by
        cases hl : litAt s i (c :: rest)
        · rfl
        · obtain ⟨h1, _⟩ := (litAt_cons s i c rest).mp hl
          rw [hg] at h1
          exact absurd h1 (by simp)
      simp [this]
    | some d =>
      show (if d = c then mtch (g + 1) (seqify (lits rest)) s (i + 1) k else none) = _
      by_cases hd : d = c
      · subst hd
        rw [if_pos rfl]
        rw [ih (g + 1) s (i + 1) k (by omega)]
        by_cases hl : litAt s (i + 1) rest = true
        · rw [if_pos hl]
          have : litAt s i (d :: rest) = true := (litAt_cons s i d rest).mpr ⟨hg, hl⟩
          rw [if_pos this]
          congr 1
          simp only [List.length_cons]
          omega
        · rw [if_neg hl]
          have : ¬ litAt s i (d :: rest) = true := by
            intro hcon
            exact hl ((litAt_cons s i d rest).mp hcon).2
          rw [if_neg this]
      · rw [if_neg hd]
        have : ¬ litAt s i (c :: rest) = true := by
          intro hcon
          obtain ⟨h1, _⟩ := (litAt_cons s i c rest).mp hcon
          rw [hg] at h1
          exact hd (Option.some_inj.mp h1)
        rw [if_neg this]

theorem mtch_wordB_lits (cs : List Char) (fuel : Nat) (s : List Char) (i : Nat)
    (k : Nat → Option Nat) (hf : cs.length + 2 ≤ fuel) :
    mtch fuel (seqify (Re.wordB :: lits cs)) s i k =
      if wordBoundaryAt s i && litAt s i cs then k (i + cs.length) else none := by
  obtain ⟨f, rfl⟩ : ∃ f, fuel = f + 1 := ⟨fuel - 1, by omega⟩
  show mtch (f + 1) (Re.cat Re.wordB (seqify (lits cs))) s i k = _
  rw [mtch]
  obtain ⟨g, rfl⟩ : ∃ g, f = g + 1 := ⟨f - 1, by omega⟩
  show mtch (g + 1) Re.wordB s i _ = _
  rw [mtch]
  cases hb : wordBoundaryAt s i
  · simp
  · simp only [if_pos rfl, Bool.true_and]
    exact mtch_lits cs (g + 1) s i k (by omega)


theorem getSub_lit (s : List Char) (i j : Nat) :
    ∀ repl : List Char, '$' ∉ repl → getSubstitution s i j repl = repl := by
  intro repl
  induction repl with
  | nil => intro _; rfl
  | cons c rest ih =>
    intro h
    have hc : c ≠ '$' := fun hcd => h (hcd ▸ by simp)
    have hrest : '$' ∉ rest := fun hm => h (by simp [hm])
    cases rest with
    | nil => rfl
    | cons d rest' =>
      rw [getSubstitution]
      rw [if_neg hc]
      rw [ih hrest]

theorem drop_eq_cons (s : List Char) (i : Nat) (c : Char) (h : s.get? i = some c) :
    s.drop i = c :: s.drop (i + 1) := by
  cases hd : s.drop i with
  | nil =>
    rw [drop_nil_get? s i hd] at h
    exact absurd h (by simp)
  | cons y ys =>
    obtain ⟨hg, hdd⟩ := drop_cons_get? s i y ys hd
    rw [hg] at h
    rw [Option.some_inj] at h
    subst h
    rw [hdd]

theorem get?_none_of_le (s : List Char) (i : Nat) (h : s.length ≤ i) : s.get? i = none := by
  apply drop_nil_get?
  exact List.drop_eq_nil_of_le h

theorem get?_some_of_lt (s : List Char) (i : Nat) (h : i < s.length) :
    ∃ c, s.get? i = some c := by
  cases hg : s.get? i with
  | none =>
    rw [List.get?_eq_getElem?] at hg
    rw [List.getElem?_eq_none_iff] at hg
    omega
  | some c => exact ⟨c, rfl⟩

theorem litAt_big (s : List Char) (pat : List Char) (hp : pat ≠ []) (q : Nat)
    (h : s.length ≤ q) : litAt s q pat = false := by
  unfold litAt
  rw [List.drop_eq_nil_of_le h]
  cases pat with
  | nil => exact absurd rfl hp
  | cons p ps => rfl

theorem litAt_le (s : List Char) : ∀ (pat : List Char) (q : Nat), pat ≠ [] →
    litAt s q pat = true → q + pat.length ≤ s.length := by
  intro pat
  induction pat with
  | nil => intro q h; exact absurd rfl h
  | cons c cs ih =>
    intro q _ h
    obtain ⟨hg, ht⟩ := (litAt_cons s q c cs).mp h
    have hlt : q < s.length := by
      by_contra hc
      rw [get?_none_of_le s q (by omega)] at hg
      exact absurd hg (by simp)
    cases cs with
    | nil =>
      simp only [List.length_cons, List.length_nil]
      omega
    | cons d cs' =>
      have h2 := ih (q + 1) (by simp) ht
      simp only [List.length_cons] at h2 ⊢
      omega



theorem findFrom_firstHit (pat : List Char) (mf : Nat) (s : List Char)
    (hmf : pat.length + 2 ≤ mf) :
    ∀ (cnt i : Nat), findFrom mf (seqify (Re.wordB :: lits pat)) s i cnt =
      (firstHit s pat i cnt).map fun p => (p, p + pat.length) := by
  intro cnt
  induction cnt with
  | zero => intro i; rfl
  | succ t ih =>
    intro i
    rw [findFrom, firstHit]
    unfold bMatch
    rw [mtch_wordB_lits pat mf s i some hmf]
    by_cases hb : (wordBoundaryAt s i && litAt s i pat) = true
    · simp [hb]
    · rw [Bool.not_eq_true] at hb
      simp only [hb, Bool.false_eq_true, if_false]
      by_cases hl : i < s.length
      · rw [if_pos hl, if_pos hl, ih]
      · rw [if_neg hl, if_neg hl]
        rfl

theorem firstHit_none (s pat : List Char) (hp : pat ≠ []) :
    ∀ (cnt pos : Nat), firstHit s pat pos cnt = none → s.length ≤ pos + cnt →
    ∀ q, pos ≤ q → bMatch s pat q = false := by
  intro cnt
  induction cnt with
  | zero =>
    intro pos _ hlen q hq
    unfold bMatch
    rw [litAt_big s pat hp q (by omega)]
    simp
  | succ t ih =>
    intro pos hfh hlen q hq
    rw [firstHit] at hfh
    by_cases hb : bMatch s pat pos = true
    · rw [if_pos hb] at hfh
      exact absurd hfh (by simp)
    · rw [if_neg hb] at hfh
      by_cases hl : pos < s.length
      · rw [if_pos hl] at hfh
        by_cases hqp : q = pos
        · subst hqp
          exact Bool.not_eq_true _ ▸ hb
        · exact ih (pos + 1) hfh (by omega) q (by omega)
      · have hq2 : s.length ≤ q := by omega
        unfold bMatch
        rw [litAt_big s pat hp q hq2]
        simp

theorem firstHit_some (s pat : List Char) :
    ∀ (cnt pos p : Nat), firstHit s pat pos cnt = some p →
    pos ≤ p ∧ bMatch s pat p = true ∧ ∀ q, pos ≤ q → q < p → bMatch s pat q = false := by
  intro cnt
  induction cnt with
  | zero => intro pos p h; exact absurd h (by simp [firstHit])
  | succ t ih =>
    intro pos p h
    rw [firstHit] at h
    by_cases hb : bMatch s pat pos = true
    · rw [if_pos hb] at h
      rw [Option.some_inj] at h
      subst h
      exact ⟨le_refl _, hb, fun q h1 h2 => absurd (lt_of_le_of_lt h1 h2) (lt_irrefl _)⟩
    · rw [if_neg hb] at h
      by_cases hl : pos < s.length
      · rw [if_pos hl] at h
        obtain ⟨h1, h2, h3⟩ := ih (pos + 1) p h
        refine ⟨by omega, h2, ?_⟩
        intro q hq1 hq2
        by_cases hqp : q = pos
        · subst hqp
          exact Bool.not_eq_true _ ▸ hb
        · exact h3 q (by omega) hq2
      · rw [if_neg hl] at h
        exact absurd h (by simp)



theorem bReplGo_tail (s pat repl : List Char) (_hp : pat ≠ []) :
    ∀ (cnt pos : Nat), (∀ q, pos ≤ q → bMatch s pat q = false) →
    s.length + 1 - pos ≤ cnt →
    bReplGo s pat repl pos cnt = s.drop pos := by
  intro cnt
  induction cnt with
  | zero =>
    intro pos _ hlen
    rw [bReplGo]
    rw [List.drop_eq_nil_of_le (by omega)]
  | succ t ih =>
    intro pos hnom hlen
    rw [bReplGo]
    cases hg : s.get? pos with
    | none =>
      have : s.length ≤ pos := by
        by_contra hc
        obtain ⟨c, hc2⟩ := get?_some_of_lt s pos (by omega)
        rw [hc2] at hg
        exact absurd hg (by simp)
      rw [List.drop_eq_nil_of_le this]
    | some c =>
      rw [hnom pos (le_refl _)]
      simp only [Bool.false_eq_true, if_false]
      have hlt : pos < s.length := by
        by_contra hc
        rw [get?_none_of_le s pos (by omega)] at hg
        exact absurd hg (by simp)
      rw [ih (pos + 1) (fun q hq => hnom q (by omega)) (by omega)]
      exact (drop_eq_cons s pos c hg).symm

theorem listExtract_cons (s : List Char) (a b : Nat) (c : Char)
    (hg : s.get? a = some c) (hab : a < b) :
    listExtract s a b = c :: listExtract s (a + 1) b := by
  unfold listExtract
  have hgt : (s.take b).get? a = some c := by
    rw [List.get?_eq_getElem?] at hg ⊢
    rw [List.getElem?_take_of_lt hab]
    exact hg
  exact drop_eq_cons (s.take b) a c hgt

theorem listExtract_self (s : List Char) (a : Nat) : listExtract s a a = [] := by
  unfold listExtract
  apply List.drop_eq_nil_of_le
  exact List.length_take_le a s

theorem bReplGo_copy (s pat repl : List Char) :
    ∀ (d pos cnt : Nat), (∀ q, pos ≤ q → q < pos + d → bMatch s pat q = false) →
    pos + d ≤ s.length → d ≤ cnt →
    bReplGo s pat repl pos cnt =
      listExtract s pos (pos + d) ++ bReplGo s pat repl (pos + d) (cnt - d) := by
  intro d
  induction d with
  | zero =>
    intro pos cnt _ _ _
    have h0 : pos + 0 = pos := rfl
    rw [h0, listExtract_self]
    simp
  | succ e ih =>
    intro pos cnt hnom hlen hcnt
    obtain ⟨t, rfl⟩ : ∃ t, cnt = t + 1 := ⟨cnt - 1, by omega⟩
    obtain ⟨c, hg⟩ := get?_some_of_lt s pos (by omega)
    rw [bReplGo, hg]
    rw [hnom pos (le_refl _) (by omega)]
    simp only [Bool.false_eq_true, if_false]
    rw [ih (pos + 1) t (fun q h1 h2 => hnom q (by omega) (by omega)) (by omega) (by omega)]
    rw [listExtract_cons s pos (pos + (e + 1)) c hg (by omega)]
    have h1 : pos + 1 + e = pos + (e + 1) := by omega
    have h2 : t - e = t + 1 - (e + 1) := by omega
    rw [h1, h2]
    simp



theorem replaceGo_eq_bReplGo (s pat repl : List Char) (hp : pat ≠ []) (mf : Nat)
    (hmf : pat.length + 2 ≤ mf) (hdol : '$' ∉ repl) :
    ∀ (n pos cnt cnt' : Nat), s.length + 1 - pos ≤ n → pos ≤ s.length →
    s.length + 1 - pos ≤ cnt → s.length + 1 - pos ≤ cnt' →
    replaceGo mf (seqify (Re.wordB :: lits pat)) s repl pos cnt =
      bReplGo s pat repl pos cnt' := by
  intro n
  induction n with
  | zero =>
    intro pos cnt cnt' hn hpos _ _
    omega
  | succ m ih =>
    intro pos cnt cnt' hn hpos hcnt hcnt'
    obtain ⟨t, rfl⟩ : ∃ t, cnt = t + 1 := ⟨cnt - 1, by omega⟩
    rw [replaceGo]
    rw [findFrom_firstHit pat mf s hmf]
    cases hFH : firstHit s pat pos (s.length + 1 - pos) with
    | none =>
      simp only [Option.map_none']
      rw [bReplGo_tail s pat repl hp cnt' pos
        (firstHit_none s pat hp _ pos hFH (by omega)) (by omega)]
    | some p =>
      obtain ⟨hpp, hbm, hno⟩ := firstHit_some s pat _ pos p hFH
      have hlit : litAt s p pat = true := by
        unfold bMatch at hbm
        exact (Bool.and_eq_true _ _ |>.mp hbm).2
      have hL : p + pat.length ≤ s.length := litAt_le s pat p hp hlit
      have hplen : 0 < pat.length := List.length_pos.mpr hp
      simp only [Option.map_some']
      rw [if_pos (show p < p + pat.length by omega)]
      rw [getSub_lit s p (p + pat.length) repl hdol]
      rw [bReplGo_copy s pat repl (p - pos) pos cnt'
        (fun q h1 h2 => hno q h1 (by omega)) (by omega) (by omega)]
      have hpe : pos + (p - pos) = p := by omega
      rw [hpe]
      obtain ⟨u, hu⟩ : ∃ u, cnt' - (p - pos) = u + 1 := ⟨cnt' - (p - pos) - 1, by omega⟩
      rw [hu, bReplGo]
      obtain ⟨c, hg⟩ := get?_some_of_lt s p (by omega)
      rw [hg]
      simp only [hbm, if_true]
      rw [ih (p + pat.length) t u (by omega) (by omega) (by omega) (by omega)]
      simp [List.append_assoc]



theorem reSize_seqify_lits (cs : List Char) :
    reSize (seqify (lits cs)) = 2 * cs.length + 1 := by
  induction cs with
  | nil => rfl
  | cons c rest ih =>
    show reSize (Re.cat (Re.lit c) (seqify (lits rest))) = _
    rw [reSize, reSize, ih]
    simp only [List.length_cons]
    omega

theorem mtchFuel_ge (pat s : List Char) :
    pat.length + 2 ≤ mtchFuel (seqify (Re.wordB :: lits pat)) s := by
  unfold mtchFuel
  have h1 : reSize (seqify (Re.wordB :: lits pat)) = 2 * pat.length + 3 := by
    show reSize (Re.cat Re.wordB (seqify (lits pat))) = _
    rw [reSize, reSize_seqify_lits, reSize]
    omega
  rw [h1]
  have h2 : 1 * (2 * pat.length + 3 + 2) ≤ (s.length + 2) * (2 * pat.length + 3 + 2) :=
    Nat.mul_le_mul_right _ (by omega)
  omega

theorem replaceAllRe_boundary (s pat repl : List Char) (hp : pat ≠ [])
    (hdol : '$' ∉ repl) :
    replaceAllRe (seqify (Re.wordB :: lits pat)) s repl = bReplaceAll s pat repl := by
  unfold replaceAllRe bReplaceAll
  exact replaceGo_eq_bReplGo s pat repl hp _ (mtchFuel_ge pat s) hdol
    (s.length + 1) 0 (s.length + 1) (s.length + 1) (by omega) (by omega) (by omega) (by omega)

theorem jsEsc_no_dollar (id : List Char) (h : '$' ∉ id) : '$' ∉ escapeForJsString id := by
  induction id with
  | nil => simp [escapeForJsString]
  | cons c rest ih =>
    have hc : c ≠ '$' := fun hcd => h (hcd ▸ by simp)
    have hrest := ih fun hm => h (by simp [hm])
    rw [escapeForJsString]
    intro hmem
    rw [List.mem_append] at hmem
    rcases hmem with hm | hm
    · by_cases h1 : c = '\\'
      · rw [if_pos h1] at hm
        exact absurd hm (by decide)
      · rw [if_neg h1] at hm
        by_cases h2 : c = '"'
        · rw [if_pos h2] at hm
          exact absurd hm (by decide)
        · rw [if_neg h2] at hm
          have hce : '$' = c := by simpa using hm
          exact hc hce.symm
    · exact hrest hm

theorem dctcCall_no_dollar (q : List Char) (h : '$' ∉ q) : '$' ∉ dctcCall q := by
  unfold dctcCall
  intro hm
  rw [List.mem_append, List.mem_append] at hm
  rcases hm with (hm | hm) | hm
  · revert hm; decide
  · exact h hm
  · revert hm; decide



theorem rewriteOne_eq (code spec id : List Char) (hdol : '$' ∉ id) :
    rewriteOne code spec id = some (rwPair code spec id) := by
  have hrd : '$' ∉ dctcCall (escapeForJsString id) :=
    dctcCall_no_dollar _ (jsEsc_no_dollar id hdol)
  unfold rewriteOne rwPair
  dsimp only
  rw [parseRe_patDouble spec, parseRe_patSingle spec]
  dsimp only
  rw [replaceAllRe_boundary code (dqCall spec) _ (by simp [dqCall]) hrd]
  rw [replaceAllRe_boundary _ (sqCall spec) _ (by simp [sqCall]) hrd]

theorem rewriteFold_eq (entries : List (List Char × List Char))
    (hdol : ∀ e ∈ entries, '$' ∉ e.2) :
    ∀ code, rewriteFold code entries = some (rwFoldRef code entries) := by
  induction entries with
  | nil => intro code; rfl
  | cons e rest ih =>
    intro code
    obtain ⟨spec, id⟩ := e
    rw [rewriteFold, rewriteOne_eq code spec id (hdol (spec, id) (by simp))]
    dsimp only
    rw [ih fun x hx => hdol x (by simp [hx])]
    rfl

theorem firstHit_none_of (s pat : List Char) (h : ∀ q, bMatch s pat q = false) :
    ∀ cnt pos, firstHit s pat pos cnt = none := by
  intro cnt
  induction cnt with
  | zero => intro pos; rfl
  | succ t ih =>
    intro pos
    rw [firstHit, h pos]
    simp only [Bool.false_eq_true, if_false]
    by_cases hl : pos < s.length
    · rw [if_pos hl, ih]
    · rw [if_neg hl]

theorem litOccurs_all_false (pat : List Char) :
    ∀ s, litOccurs pat s = false → ∀ i, litAt s i pat = false := by
  intro s
  induction s with
  | nil =>
    intro h i
    unfold litAt
    rw [List.drop_nil]
    exact h
  | cons c cs ih =>
    intro h i
    rw [litOccurs] at h
    rw [Bool.or_eq_false_iff] at h
    cases i with
    | zero => exact h.1
    | succ j =>
      have : litAt (c :: cs) (j + 1) pat = litAt cs j pat := rfl
      rw [this]
      exact ih h.2 j

theorem replaceAllRe_id (s pat repl : List Char) (hocc : litOccurs pat s = false) :
    replaceAllRe (seqify (Re.wordB :: lits pat)) s repl = s := by
  unfold replaceAllRe
  rw [replaceGo]
  rw [findFrom_firstHit pat _ s (mtchFuel_ge pat s)]
  rw [firstHit_none_of s pat (by
    intro q
    unfold bMatch
    rw [litOccurs_all_false pat s hocc q]
    simp)]
  rfl

theorem rewriteOne_id (code spec id : List Char)
    (hd : litOccurs (dqCall spec) code = false)
    (hs : litOccurs (sqCall spec) code = false) :
    rewriteOne code spec id = some code := by
  unfold rewriteOne
  dsimp only
  rw [parseRe_patDouble spec, parseRe_patSingle spec]
  dsimp only
  rw [replaceAllRe_id code (dqCall spec) _ hd]
  rw [replaceAllRe_id code (sqCall spec) _ hs]




theorem rewriteOneEsb_eq_rewriteOne (code spec id : List Char)
    (hm : ∀ c ∈ spec, isRegexMeta c = false) :
    rewriteOneEsb code spec id = rewriteOne code spec id := by
  unfold rewriteOneEsb rewriteOne
  dsimp only
  rw [parseRe_patDoubleEsb spec hm, parseRe_patSingleEsb spec hm,
    parseRe_patDouble spec, parseRe_patSingle spec]

theorem rewriteFoldEsb_eq (entries : List (List Char × List Char))
    (hm : ∀ e ∈ entries, ∀ c ∈ e.1, isRegexMeta c = false) :
    ∀ code, rewriteFoldEsb code entries = rewriteFold code entries := by
  induction entries with
  | nil => intro code; rfl
  | cons e rest ih =>
    intro code
    obtain ⟨spec, id⟩ := e
    rw [rewriteFoldEsb, rewriteFold]
    rw [rewriteOneEsb_eq_rewriteOne code spec id (hm (spec, id) (by simp))]
    cases rewriteOne code spec id with
    | none => rfl
    | some c2 => exact ih (fun x hx => hm x (by simp [hx])) c2

/-- **C10 (counterexample).** The two `rewriteLocalRequires`
implementations disagree: with the dependency map `{"./x": "/ID"}`, the
esbuild variant's unescaped `.` matches the `a` of `require("a/x")`,
which the SWC variant leaves untouched. -/
theorem c10_counterexample :
    rewriteLocalRequires "q = require(\"a/x\");" [("./x", "/ID")] =
      some "q = require(\"a/x\");" ∧
    rewriteLocalRequiresEsb "q = require(\"a/x\");" [("./x", "/ID")] =
      some "q = __dctc_require(\"/ID\");" ∧
    rewriteLocalRequiresEsb "q = require(\"a/x\");" [("./x", "/ID")] ≠
      rewriteLocalRequires "q = require(\"a/x\");" [("./x", "/ID")] := by
  refine ⟨by decide, by decide, by decide⟩

/-- **C10 (amended).** On dependency maps whose specifiers contain no
regular-expression metacharacter, the SWC `rewriteLocalRequires` and the
esbuild `rewriteLocalRequires` return the same output for every
transformed code string. -/
theorem c10_rewriters_agree (code : String) (map : List (String × String))
    (hm : ∀ e ∈ map, ∀ c ∈ e.1.data, isRegexMeta c = false) :
    rewriteLocalRequiresEsb code map = rewriteLocalRequires code map := by
  unfold rewriteLocalRequiresEsb rewriteLocalRequires
  rw [rewriteFoldEsb_eq _ (by
    intro e he c hc
    simp only [List.mem_map] at he
    obtain ⟨p, hp, rfl⟩ := he
    exact hm p hp c hc)]

/-- Witness for C10 (amended) at a concrete code/map pair. -/
theorem c10_witness :
    rewriteLocalRequiresEsb "y = require(\"/lib/a\");" [("/lib/a", "/lib/a?ts")] =
      rewriteLocalRequires "y = require(\"/lib/a\");" [("/lib/a", "/lib/a?ts")] :=
  c10_rewriters_agree "y = require(\"/lib/a\");" [("/lib/a", "/lib/a?ts")] (by decide)



/-- **C5 (counterexample).** As stated, the claim fails: `String.replace`
gives `$`-sequences in the replacement special meaning, and the resolved
id is only escaped for string-literal safety, not for substitution
safety.  With resolved id `/p$&`, the emitted call's literal argument is
not the resolved id but contains the matched call site spliced in. -/
theorem c5_counterexample :
    rewriteLocalRequires "var x = require(\"./x\");" [("./x", "/p$&")] =
      some "var x = __dctc_require(\"/prequire(\"./x\")\");" ∧
    rewriteLocalRequires "var x = require(\"./x\");" [("./x", "/p$&")] ≠
      some "var x = __dctc_require(\"/p$&\");" := by
  refine ⟨by decide, by decide⟩

/-- **C5 (amended).** For dependency-map entries whose resolved id
contains no `$`, the rewriter does exactly what the claim says: fold over
the map, and for each `(spec, id)` pair replace every word-boundary
occurrence of `require("spec")` and then of `require('spec')` - the
specifier matched as a literal - by `__dctc_require("<escaped id>")`.
In particular a specifier with metacharacters such as `./a.b+c` rewrites
exactly its own call sites and never a call site of `./a.b+cd`. -/
theorem c5_rewrite_exact :
    (∀ (code : String) (map : List (String × String)),
      (∀ e ∈ map, '$' ∉ e.2.data) →
      rewriteLocalRequires code map =
        some (String.mk (rwFoldRef code.data (map.map fun p => (p.1.data, p.2.data))))) ∧
    rewriteLocalRequires "a = require(\"./a.b+cd\"); b = require(\"./a.b+c\");"
        [("./a.b+c", "/ID")] =
      some "a = require(\"./a.b+cd\"); b = __dctc_require(\"/ID\");" := by
  constructor
  · intro code map h
    unfold rewriteLocalRequires
    rw [rewriteFold_eq _ (by
      intro e he
      simp only [List.mem_map] at he
      obtain ⟨p, hp, rfl⟩ := he
      exact h p hp) code.data]
    rfl
  · decide

/-- Witness for C5 (amended) at a concrete code/map pair. -/
theorem c5_witness :
    rewriteLocalRequires "z = require(\"./u\");" [("./u", "/a/u.ts")] =
      some (String.mk (rwFoldRef "z = require(\"./u\");".data
        [("./u".data, "/a/u.ts".data)])) :=
  c5_rewrite_exact.1 "z = require(\"./u\");" [("./u", "/a/u.ts")] (by decide)

theorem rewriteFold_untouched (entries : List (List Char × List Char)) :
    ∀ code, (∀ e ∈ entries, litOccurs (dqCall e.1) code = false ∧
      litOccurs (sqCall e.1) code = false) →
    rewriteFold code entries = some code := by
  induction entries with
  | nil => intro code _; rfl
  | cons e rest ih =>
    intro code h
    obtain ⟨spec, id⟩ := e
    rw [rewriteFold]
    rw [rewriteOne_id code spec id (h (spec, id) (by simp)).1 (h (spec, id) (by simp)).2]
    exact ih code fun x hx => h x (by simp [hx])

/-- **C8.** Externals are never bundled: (i) if a specifier's call-site
text (in either quoting style) does not occur in the code, the rewriter
leaves the code textually unchanged for maps made of such specifiers;
(ii) at run time, the emitted loader answers a request for an id absent
from the module table by delegating to the host `require`, leaving the
loader state (cache, heap, trace) untouched. -/
theorem c8_externals_untouched :
    (∀ (code : String) (map : List (String × String)),
      (∀ e ∈ map, litOccurs (dqCall e.1.data) code.data = false ∧
        litOccurs (sqCall e.1.data) code.data = false) →
      rewriteLocalRequires code map = some code) ∧
    (∀ (table : List (String × RtRec)) (fuel : Nat) (id : String) (st : RtSt),
      st.cache.lookup id = none → table.lookup id = none →
      dctcRequire table (fuel + 1) id st = some (.hostVal id, st)) := by
  constructor
  · intro code map h
    unfold rewriteLocalRequires
    rw [rewriteFold_untouched _ code.data (by
      intro e he
      simp only [List.mem_map] at he
      obtain ⟨p, hp, rfl⟩ := he
      exact h p hp)]
    cases code
    rfl
  · intro table fuel id st hc ht
    rw [dctcRequire, hc, ht]

/-- Witness for C8 at a concrete code/map pair and a concrete loader
request for an external id. -/
theorem c8_witness :
    rewriteLocalRequires "var l = require(\"left-pad\");" [("./x", "/ID")] =
      some "var l = require(\"left-pad\");" ∧
    dctcRequire [] 1 "left-pad" initRt = some (.hostVal "left-pad", initRt) :=
  ⟨c8_externals_untouched.1 "var l = require(\"left-pad\");" [("./x", "/ID")] (by decide),
   c8_externals_untouched.2 [] 0 "left-pad" initRt rfl rfl⟩




theorem addSpec_nodup (s : String) (acc : List String) (h : acc.Nodup) :
    (addSpec s acc).Nodup := by
  unfold addSpec
  by_cases hm : s ∈ acc
  · rw [if_pos hm]; exact h
  · rw [if_neg hm]
    simp [List.nodup_append, h, hm]

theorem addSpec_mem (s x : String) (acc : List String) :
    x ∈ addSpec s acc ↔ x ∈ acc ∨ x = s := by
  unfold addSpec
  by_cases hm : s ∈ acc
  · rw [if_pos hm]
    constructor
    · exact Or.inl
    · rintro (h | rfl)
      · exact h
      · exact hm
  · rw [if_neg hm]
    simp

theorem sourceSpec_nodup (src : Option Ast) (acc : List String) (h : acc.Nodup) :
    (sourceSpec src acc).Nodup := by
  cases src with
  | none => simpa [sourceSpec] using h
  | some n =>
    cases hv : valueOf n with
    | none => simpa [sourceSpec, hv] using h
    | some v => simpa [sourceSpec, hv] using addSpec_nodup v acc h

theorem sourceSpec_mem (src : Option Ast) (x : String) (acc : List String) :
    x ∈ sourceSpec src acc ↔ x ∈ acc ∨ x ∈ ownSrc src := by
  cases src with
  | none => simp [sourceSpec, ownSrc]
  | some n =>
    cases hv : valueOf n with
    | none => simp [sourceSpec, ownSrc, hv]
    | some v => simp [sourceSpec, ownSrc, hv, addSpec_mem]

theorem requireSpec_nodup (callee : Ast) (args : List Ast) (acc : List String)
    (h : acc.Nodup) : (requireSpec callee args acc).Nodup := by
  cases hr : reqArgSpec callee args with
  | none => simpa [requireSpec, hr] using h
  | some v => simpa [requireSpec, hr] using addSpec_nodup v acc h

theorem requireSpec_mem (callee : Ast) (args : List Ast) (x : String) (acc : List String) :
    x ∈ requireSpec callee args acc ↔ x ∈ acc ∨ x ∈ ownReq callee args := by
  cases hr : reqArgSpec callee args with
  | none => simp [requireSpec, ownReq, hr]
  | some v => simp [requireSpec, ownReq, hr, addSpec_mem]

mutual

theorem visitAst_nodup (n : Ast) : ∀ acc : List String, acc.Nodup → (visitAst n acc).Nodup := by
  intro acc h
  match n with
  | .ident _ => exact h
  | .strLit _ => exact h
  | .importDecl src kids =>
    exact visitList_nodup kids _ (visitOpt_nodup src _ (sourceSpec_nodup src acc h))
  | .exportNamed src kids =>
    exact visitList_nodup kids _ (visitOpt_nodup src _ (sourceSpec_nodup src acc h))
  | .exportAll src kids =>
    exact visitList_nodup kids _ (visitOpt_nodup src _ (sourceSpec_nodup src acc h))
  | .call callee args kids =>
    exact visitList_nodup kids _ (visitList_nodup args _
      (visitAst_nodup callee _ (requireSpec_nodup callee args acc h)))
  | .node kids => exact visitList_nodup kids acc h

theorem visitOpt_nodup (o : Option Ast) : ∀ acc : List String, acc.Nodup →
    (visitOpt o acc).Nodup := by
  intro acc h
  match o with
  | none => exact h
  | some n => exact visitAst_nodup n acc h

theorem visitList_nodup (l : List Ast) : ∀ acc : List String, acc.Nodup →
    (visitList l acc).Nodup := by
  intro acc h
  match l with
  | [] => exact h
  | n :: rest => exact visitList_nodup rest _ (visitAst_nodup n acc h)

end

mutual

theorem visitAst_mem (n : Ast) : ∀ (acc : List String) (x : String),
    x ∈ visitAst n acc ↔ x ∈ acc ∨ x ∈ staticSpecs n := by
  intro acc x
  match n with
  | .ident v => simp [visitAst, staticSpecs]
  | .strLit v => simp [visitAst, staticSpecs]
  | .importDecl src kids =>
    show x ∈ visitList kids (visitOpt src (sourceSpec src acc)) ↔ _
    rw [visitList_mem kids, visitOpt_mem src, sourceSpec_mem]
    simp [staticSpecs, or_assoc]
  | .exportNamed src kids =>
    show x ∈ visitList kids (visitOpt src (sourceSpec src acc)) ↔ _
    rw [visitList_mem kids, visitOpt_mem src, sourceSpec_mem]
    simp [staticSpecs, or_assoc]
  | .exportAll src kids =>
    show x ∈ visitList kids (visitOpt src (sourceSpec src acc)) ↔ _
    rw [visitList_mem kids, visitOpt_mem src, sourceSpec_mem]
    simp [staticSpecs, or_assoc]
  | .call callee args kids =>
    show x ∈ visitList kids (visitList args (visitAst callee (requireSpec callee args acc))) ↔ _
    rw [visitList_mem kids, visitList_mem args, visitAst_mem callee, requireSpec_mem]
    simp [staticSpecs, or_assoc]
  | .node kids =>
    show x ∈ visitList kids acc ↔ _
    rw [visitList_mem kids]
    simp [staticSpecs]

theorem visitOpt_mem (o : Option Ast) : ∀ (acc : List String) (x : String),
    x ∈ visitOpt o acc ↔ x ∈ acc ∨ x ∈ staticSpecsOpt o := by
  intro acc x
  match o with
  | none => simp [visitOpt, staticSpecsOpt]
  | some n =>
    show x ∈ visitAst n acc ↔ _
    rw [visitAst_mem n]
    simp [staticSpecsOpt]

theorem visitList_mem (l : List Ast) : ∀ (acc : List String) (x : String),
    x ∈ visitList l acc ↔ x ∈ acc ∨ x ∈ staticSpecsList l := by
  intro acc x
  match l with
  | [] => simp [visitList, staticSpecsList]
  | n :: rest =>
    show x ∈ visitList rest (visitAst n acc) ↔ _
    rw [visitList_mem rest, visitAst_mem n]
    simp [staticSpecsList, or_assoc]

end

theorem buildMap_keys (env : Env) (absPath : String) :
    ∀ (l : List String) (m : List (String × String)),
    buildMap env absPath l = .ok m → ∀ pr ∈ m, pr.1 ∈ l := by
  intro l
  induction l with
  | nil =>
    intro m h pr hpr
    rw [buildMap] at h
    cases h
    exact absurd hpr (by simp)
  | cons spec rest ih =>
    intro m h pr hpr
    rw [buildMap] at h
    cases hr : resolveLocal env absPath spec with
    | error e => rw [hr] at h; exact absurd h (by simp)
    | ok resolved =>
      rw [hr] at h
      cases hb : buildMap env absPath rest with
      | error e => rw [hb] at h; exact absurd h (by simp)
      | ok tail =>
        rw [hb] at h
        cases h
        rcases List.mem_cons.mp hpr with hpr | hpr
        · simp [hpr]
        · simp [ih tail hb pr hpr]

theorem parseForImports_local (env : Env) (absPath source : String) (l : List String)
    (h : parseForImports env absPath source = .ok l) :
    ∀ s ∈ l, isLocalSpecifier s = true := by
  unfold parseForImports at h
  cases hp : env.parseAst absPath source with
  | error e => rw [hp] at h; exact absurd h (by simp)
  | ok ast =>
    rw [hp] at h
    cases h
    intro s hs
    exact List.of_mem_filter hs

theorem loadDeps_preserves {P : BuildSt → Prop} (f : String → BuildSt → Res BuildSt)
    (env : Env) (absPath : String)
    (hf : ∀ p st st', f p st = .ok st' → P st → P st') :
    ∀ specs st st', loadDeps f env absPath specs st = .ok st' → P st → P st' := by
  intro specs
  induction specs with
  | nil =>
    intro st st' h hp
    rw [loadDeps] at h
    cases h
    exact hp
  | cons spec rest ih =>
    intro st st' h hp
    rw [loadDeps] at h
    split at h
    · exact absurd h (by simp)
    next resolved hr =>
      split at h
      · exact absurd h (by simp)
      · exact absurd h (by simp)
      next st2 hlm =>
        exact ih st2 st' h (hf resolved st st2 hlm hp)

theorem loadModule_mapsLocal (env : Env) : ∀ fuel : Nat,
    ∀ absPath st st', loadModule env fuel absPath st = .ok st' → MapsLocal st → MapsLocal st' := by
  intro fuel
  induction fuel with
  | zero =>
    intro absPath st st' hload _
    simp [loadModule] at hload
  | succ f ih =>
    intro absPath st st' hload hm
    rw [loadModule] at hload
    dsimp only at hload
    by_cases h1 : normalizeId env absPath ∈ st.visited
    · rw [if_pos h1] at hload
      cases hload
      exact hm
    · rw [if_neg h1] at hload
      by_cases h2 : normalizeId env absPath ∈ st.visiting
      · rw [if_pos h2] at hload
        cases hload
        exact hm
      · rw [if_neg h2] at hload
        by_cases h3 : extnameLower absPath = ".json"
        · rw [if_pos h3] at hload
          split at hload
          · exact absurd hload (by simp)
          · split at hload
            · exact absurd hload (by simp)
            · cases hload
              intro e he pr hpr
              rcases List.mem_append.mp he with he | he
              · exact hm e he pr hpr
              · rw [List.mem_singleton] at he
                subst he
                exact absurd hpr (by simp)
        · rw [if_neg h3] at hload
          split at hload
          · exact absurd hload (by simp)
          next source0 hrf =>
            split at hload
            · exact absurd hload (by simp)
            next localImports hpi =>
              split at hload
              · exact absurd hload (by simp)
              next map hbm =>
                have hmap : ∀ pr ∈ map, isLocalSpecifier pr.1 = true := by
                  intro pr hpr
                  exact parseForImports_local env absPath _ localImports hpi pr.1
                    (buildMap_keys env absPath localImports map hbm pr hpr)
                split at hload
                · exact absurd hload (by simp)
                · exact absurd hload (by simp)
                next st3 hld =>
                  split at hload
                  · exact absurd hload (by simp)
                  next transformed htr =>
                    split at hload
                    · exact absurd hload (by simp)
                    next rewritten hrw =>
                      cases hload
                      refine loadDeps_preserves (loadModule env f) env absPath ih
                        localImports _ st3 hld ?_
                      intro e he pr hpr
                      rcases List.mem_append.mp he with he | he
                      · exact hm e he pr hpr
                      · rw [List.mem_singleton] at he
                        subst he
                        exact hmap pr hpr

/-- **C6.** The dependency extractor: `collectSpecifiersFromAst` returns
a deduplicated list whose members are exactly the specifiers found at the
three collected positions (import declarations, re-export declarations
with a source, and `require` calls whose callee is the identifier
`require` applied to exactly one string-literal argument - so non-literal
or computed require arguments are never collected); `parseForImports`
keeps only local specifiers; and every dependency map a build records
holds only local specifiers. -/
theorem c6_extractor_contract :
    (∀ ast : Ast, (collectSpecifiersFromAst ast).Nodup) ∧
    (∀ (ast : Ast) (x : String), x ∈ collectSpecifiersFromAst ast ↔ x ∈ staticSpecs ast) ∧
    (∀ (env : Env) (absPath source : String) (l : List String),
      parseForImports env absPath source = .ok l → ∀ s ∈ l, isLocalSpecifier s = true) ∧
    (∀ (env : Env) (fuel : Nat) (absPath : String) (st' : BuildSt),
      loadModule env fuel absPath initSt = .ok st' →
      ∀ e ∈ st'.requireMaps, ∀ pr ∈ e.2, isLocalSpecifier pr.1 = true) := by
  refine ⟨?_, ?_, parseForImports_local, ?_⟩
  · intro ast
    exact visitAst_nodup ast [] List.nodup_nil
  · intro ast x
    have h := visitAst_mem ast [] x
    simpa [collectSpecifiersFromAst] using h
  · intro env fuel absPath st' h
    exact loadModule_mapsLocal env fuel absPath initSt st' h
      (fun e he => absurd he (by simp [initSt]))

/-- Witness for C6 at a concrete environment and build. -/
theorem c6_witness :
    (∀ s ∈ [("./u" : String)], isLocalSpecifier s = true) ∧
    (∀ e ∈ stA.requireMaps, ∀ pr ∈ e.2, isLocalSpecifier pr.1 = true) :=
  ⟨c6_extractor_contract.2.2.1 envA "/m.ts" "import u from \"./u\";" ["./u"] (by decide),
   c6_extractor_contract.2.2.2 envA 3 "/m.ts" stA (by decide)⟩




/-- **C7.** An unresolvable local specifier aborts the whole build:
(i) `resolveLocal` fails, with an error naming the specifier and the
importer, exactly when no candidate of the resolution order exists as a
file; (ii) the dependency loop re-raises that error immediately; (iii)
`complie_swc` propagates any error of the traversal unchanged to its
caller and produces no bundle string (and hence no partial table). -/
theorem c7_resolution_failure_aborts :
    (∀ (env : Env) (fromFile spec : String),
      (resolveLocal env fromFile spec = .error (.resolve spec fromFile) ↔
        resolveWithExt env.fsys (resolveBase env fromFile spec) = none) ∧
      (∀ e, resolveLocal env fromFile spec = .error e → e = .resolve spec fromFile)) ∧
    (∀ (f : String → BuildSt → Res BuildSt) (env : Env) (absPath spec : String)
      (rest : List String) (st : BuildSt) (e : BErr),
      resolveLocal env absPath spec = .error e →
      loadDeps f env absPath (spec :: rest) st = .err e) ∧
    (∀ (env : Env) (fuel : Nat) (filePath : String) (e : BErr),
      env.existsSync filePath = true →
      loadModule env fuel (env.resolveOne filePath) initSt = .err e →
      complie_swc env fuel filePath = .err e) := by
  refine ⟨?_, ?_, ?_⟩
  · intro env fromFile spec
    constructor
    · unfold resolveLocal resolveBase
      dsimp only
      cases hr : resolveWithExt env.fsys
          (if startsWithSlash spec then env.resolveOne spec
           else env.resolvePath (env.dirname fromFile) spec) with
      | some r => simp
      | none => simp
    · intro e
      unfold resolveLocal
      dsimp only
      cases hr : resolveWithExt env.fsys
          (if startsWithSlash spec then env.resolveOne spec
           else env.resolvePath (env.dirname fromFile) spec) with
      | some r => intro h; exact absurd h (by simp)
      | none =>
        intro h
        injection h with h2
        exact h2.symm
  · intro f env absPath spec rest st e hr
    rw [loadDeps, hr]
  · intro env fuel filePath e hex hload
    unfold complie_swc
    rw [if_neg (by rw [hex]; simp)]
    dsimp only
    rw [hload]

/-- Witness for C7: a build whose entry imports `./nope`, which resolves
to no candidate file, errors end to end with the resolution error. -/
theorem c7_witness :
    (resolveLocal envC "/m.ts" "./nope" = .error (.resolve "./nope" "/m.ts") ↔
      resolveWithExt envC.fsys (resolveBase envC "/m.ts" "./nope") = none) ∧
    complie_swc envC 2 "/m.ts" = .err (.resolve "./nope" "/m.ts") :=
  ⟨(c7_resolution_failure_aborts.1 envC "/m.ts" "./nope").1,
   c7_resolution_failure_aborts.2.2 envC 2 "/m.ts" (.resolve "./nope" "/m.ts")
     (by decide) (by decide)⟩


theorem freeOf_le (id : String) (vis : List String) (U : List String) :
    freeOf U (id :: vis) ≤ freeOf U vis := by
  unfold freeOf
  rw [← List.countP_eq_length_filter, ← List.countP_eq_length_filter]
  refine List.countP_mono_left ?_
  intro x _ hx
  simp only [decide_eq_true_eq] at hx ⊢
  intro hm
  exact hx (by simp [hm])

theorem freeOf_lt (id : String) (vis : List String) (hnv : id ∉ vis)
    (U : List String) (hmem : id ∈ U) : freeOf U (id :: vis) < freeOf U vis := by
  obtain ⟨A, B, rfl⟩ := List.append_of_mem hmem
  unfold freeOf
  rw [← List.countP_eq_length_filter, ← List.countP_eq_length_filter]
  rw [List.countP_append, List.countP_append, List.countP_cons, List.countP_cons]
  rw [if_neg (by simp), if_pos (by simp [hnv])]
  have hA : List.countP (fun p => decide (p ∉ id :: vis)) A ≤
      List.countP (fun p => decide (p ∉ vis)) A := by
    refine List.countP_mono_left ?_
    intro x _ hx
    simp only [decide_eq_true_eq] at hx ⊢
    intro hm
    exact hx (by simp [hm])
  have hB : List.countP (fun p => decide (p ∉ id :: vis)) B ≤
      List.countP (fun p => decide (p ∉ vis)) B := by
    refine List.countP_mono_left ?_
    intro x _ hx
    simp only [decide_eq_true_eq] at hx ⊢
    intro hm
    exact hx (by simp [hm])
  omega



theorem envOk_spec (env : Env) (U : List String) (henv : envOkB env U = true)
    (p : String) (hp : p ∈ U) :
    (∃ ds, moduleDeps env p = .ok ds ∧ ∀ d ∈ ds, d ∈ U) ∧
    normalizeId env p = p ∧
    (extnameLower p = ".json" ∨ transformOkB env p = true) := by
  have hm : moduleOkB env U p = true := by
    unfold envOkB at henv
    rw [List.all_eq_true] at henv
    exact henv p hp
  unfold moduleOkB at hm
  rw [Bool.and_eq_true, Bool.and_eq_true] at hm
  obtain ⟨⟨hdeps, hnorm⟩, hrest⟩ := hm
  refine ⟨?_, ?_, ?_⟩
  · cases hd : moduleDeps env p with
    | error e => rw [hd] at hdeps; exact absurd hdeps (by simp)
    | ok ds =>
      rw [hd] at hdeps
      refine ⟨ds, rfl, ?_⟩
      intro d hdm
      rw [List.all_eq_true] at hdeps
      have := hdeps d hdm
      simpa using this
  · unfold normalizeId
    simpa using hnorm
  · rw [Bool.or_eq_true] at hrest
    rcases hrest with h | h
    · exact Or.inl (by simpa using h)
    · exact Or.inr h



theorem moduleDeps_json (env : Env) (p : String) (h3 : extnameLower p = ".json")
    (ds : List String) (h : moduleDeps env p = .ok ds) :
    ∃ t v, env.readFile p = .ok t ∧ jsonParse t = some v ∧ ds = [] := by
  unfold moduleDeps at h
  rw [if_pos h3] at h
  split at h
  next e heq => exact absurd h (by simp)
  next t heq =>
    split at h
    next heq2 => exact absurd h (by simp)
    next v heq2 =>
      cases h
      exact ⟨t, v, heq, heq2, rfl⟩

theorem moduleDeps_code (env : Env) (p : String) (h3 : ¬ extnameLower p = ".json")
    (ds : List String) (h : moduleDeps env p = .ok ds) :
    ∃ source0 localImports, env.readFile p = .ok source0 ∧
      parseForImports env p (patchImportMetaUrl source0) = .ok localImports ∧
      resolveAll env p localImports = .ok ds := by
  unfold moduleDeps at h
  rw [if_neg h3] at h
  split at h
  next e heq => exact absurd h (by simp)
  next source0 heq =>
    split at h
    next e heq2 => exact absurd h (by simp)
    next localImports heq2 =>
      exact ⟨source0, localImports, heq, heq2, h⟩

theorem buildMap_total (env : Env) (absPath : String) :
    ∀ (l ds : List String), resolveAll env absPath l = .ok ds →
    ∃ m, buildMap env absPath l = .ok m := by
  intro l
  induction l with
  | nil => intro ds _; exact ⟨[], rfl⟩
  | cons spec rest ih =>
    intro ds h
    rw [resolveAll] at h
    cases hr : resolveLocal env absPath spec with
    | error e => rw [hr] at h; exact absurd h (by simp)
    | ok resolved =>
      rw [hr] at h
      cases ha : resolveAll env absPath rest with
      | error e => rw [ha] at h; exact absurd h (by simp)
      | ok tail =>
        obtain ⟨m, hm⟩ := ih tail ha
        refine ⟨(spec, normalizeId env resolved) :: m, ?_⟩
        rw [buildMap, hr, hm]

theorem rewriteOne_total (code spec id : List Char) :
    ∃ out, rewriteOne code spec id = some out := by
  unfold rewriteOne
  dsimp only
  rw [parseRe_patDouble spec, parseRe_patSingle spec]
  exact ⟨_, rfl⟩

theorem rewriteFold_total : ∀ (entries : List (List Char × List Char)) (code : List Char),
    ∃ out, rewriteFold code entries = some out := by
  intro entries
  induction entries with
  | nil => intro code; exact ⟨code, rfl⟩
  | cons e rest ih =>
    intro code
    obtain ⟨spec, id⟩ := e
    obtain ⟨c2, hc2⟩ := rewriteOne_total code spec id
    obtain ⟨out, hout⟩ := ih c2
    refine ⟨out, ?_⟩
    rw [rewriteFold, hc2]
    exact hout

theorem rewriteLocalRequires_total (code : String) (map : List (String × String)) :
    ∃ out, rewriteLocalRequires code map = some out := by
  unfold rewriteLocalRequires
  obtain ⟨o, ho⟩ := rewriteFold_total (map.map fun p => (p.1.data, p.2.data)) code.data
  exact ⟨String.mk o, by rw [ho]; rfl⟩

theorem resolveAll_loadDeps (env : Env) (absPath : String) :
    ∀ (l ds : List String), resolveAll env absPath l = .ok ds → ds.length = l.length := by
  intro l
  induction l with
  | nil => intro ds h; rw [resolveAll] at h; cases h; rfl
  | cons spec rest ih =>
    intro ds h
    rw [resolveAll] at h
    cases hr : resolveLocal env absPath spec with
    | error e => rw [hr] at h; exact absurd h (by simp)
    | ok resolved =>
      rw [hr] at h
      cases ha : resolveAll env absPath rest with
      | error e => rw [ha] at h; exact absurd h (by simp)
      | ok tail =>
        rw [ha] at h
        cases h
        simp [ih tail ha]



theorem depsOf_eq (env : Env) (p : String) (ds : List String)
    (h : moduleDeps env p = .ok ds) : depsOf env p = ds := by
  unfold depsOf
  rw [h]

theorem freeOf_nil (U : List String) : freeOf U [] = U.length := by
  simp [freeOf]

theorem loadDeps_master (env : Env) (U : List String) (absPath : String) (V : List String)
    (f : String → BuildSt → Res BuildSt)
    (hf : ∀ (q : String) (st : BuildSt), q ∈ U → Inv env U st → st.visiting = V →
      ∃ st2, f q st = .ok st2 ∧ Inv env U st2 ∧ st2.visiting = V ∧
        (∃ tl, st2.visited = st.visited ++ tl) ∧
        (q ∈ st2.visited ∨ q ∈ V)) :
    ∀ (specs ds : List String) (st : BuildSt),
      resolveAll env absPath specs = .ok ds →
      (∀ d ∈ ds, d ∈ U) →
      Inv env U st → st.visiting = V →
      ∃ st2, loadDeps f env absPath specs st = .ok st2 ∧ Inv env U st2 ∧
        st2.visiting = V ∧
        (∃ tl, st2.visited = st.visited ++ tl) ∧
        (∀ d ∈ ds, d ∈ st2.visited ∨ d ∈ V) := by
  intro specs
  induction specs with
  | nil =>
    intro ds st hra _ hinv hvis
    rw [resolveAll] at hra
    cases hra
    exact ⟨st, rfl, hinv, hvis, ⟨[], by simp⟩, by intro d hd; cases hd⟩
  | cons spec rest ih =>
    intro ds st hra hdsU hinv hvis
    rw [resolveAll] at hra
    split at hra
    next e heq => exact absurd hra (by simp)
    next resolved heq =>
      split at hra
      next e heq2 => exact absurd hra (by simp)
      next tail heq2 =>
        cases hra
        have hrU : resolved ∈ U := hdsU resolved (List.mem_cons_self _ _)
        have htU : ∀ d ∈ tail, d ∈ U := fun d hd => hdsU d (List.mem_cons_of_mem _ hd)
        obtain ⟨stm, hfm, hinvm, hvism, ⟨tl1, hvtd1⟩, hmem1⟩ := hf resolved st hrU hinv hvis
        obtain ⟨st2, hld, hinv2, hvis2, ⟨tl2, hvtd2⟩, hmem2⟩ := ih tail stm heq2 htU hinvm hvism
        refine ⟨st2, ?_, hinv2, hvis2, ⟨tl1 ++ tl2, by rw [hvtd2, hvtd1, List.append_assoc]⟩, ?_⟩
        · rw [loadDeps, heq]
          dsimp only
          rw [hfm]
          exact hld
        · intro d hd
          rcases List.mem_cons.mp hd with h | h
          · subst h
            rcases hmem1 with h | h
            · exact Or.inl (by rw [hvtd2]; exact List.mem_append_left _ h)
            · exact Or.inr h
          · exact hmem2 d h

theorem loadModule_master (env : Env) (U : List String) (henv : envOkB env U = true) :
    ∀ (fuel : Nat) (p : String) (st : BuildSt),
      p ∈ U → Inv env U st → freeOf U st.visiting < fuel →
      ∃ st2, loadModule env fuel p st = .ok st2 ∧ Inv env U st2 ∧
        st2.visiting = st.visiting ∧
        (∃ tl, st2.visited = st.visited ++ tl) ∧
        (p ∈ st2.visited ∨ p ∈ st.visiting) := by
  intro fuel
  induction fuel with
  | zero => intro p st _ _ hlt; exact absurd hlt (by omega)
  | succ n ih =>
    intro p st hpU hinv hlt
    obtain ⟨⟨ds, hds, hdsU⟩, hnorm, hjt⟩ := envOk_spec env U henv p hpU
    obtain ⟨hkeys, hnd, hvdU, hvgU, hdisj, hclosure, hmaps⟩ := hinv
    rw [loadModule]
    dsimp only
    rw [hnorm]
    by_cases h1 : p ∈ st.visited
    · rw [if_pos h1]
      exact ⟨st, rfl, ⟨hkeys, hnd, hvdU, hvgU, hdisj, hclosure, hmaps⟩, rfl,
        ⟨[], by simp⟩, Or.inl h1⟩
    · rw [if_neg h1]
      by_cases h2 : p ∈ st.visiting
      · rw [if_pos h2]
        exact ⟨st, rfl, ⟨hkeys, hnd, hvdU, hvgU, hdisj, hclosure, hmaps⟩, rfl,
          ⟨[], by simp⟩, Or.inr h2⟩
      · rw [if_neg h2]
        by_cases h3 : extnameLower p = ".json"
        · rw [if_pos h3]
          obtain ⟨t, v, hrf, hjp, hds0⟩ := moduleDeps_json env p h3 ds hds
          subst hds0
          rw [hrf]
          dsimp only
          rw [hjp]
          dsimp only
          rw [List.erase_cons_head]
          refine ⟨_, rfl, ?_, rfl, ⟨[p], rfl⟩, Or.inl (by simp)⟩
          refine ⟨?_, ?_, ?_, hvgU, ?_, ?_, ?_⟩
          · dsimp only; rw [List.map_append, hkeys]; rfl
          · exact List.nodup_append.mpr ⟨hnd, List.nodup_singleton p,
              by intro a ha hb; simp at hb; subst hb; exact h1 ha⟩
          · intro q hq
            rcases List.mem_append.mp hq with h | h
            · exact hvdU q h
            · simp at h; subst h; exact hpU
          · intro q hq
            rcases List.mem_append.mp hq with h | h
            · exact hdisj q h
            · simp at h; subst h; exact h2
          · intro q hq d hd
            rcases List.mem_append.mp hq with h | h
            · rcases hclosure q h d hd with h4 | h4
              · exact Or.inl (List.mem_append_left _ h4)
              · exact Or.inr h4
            · simp at h; subst h
              rw [depsOf_eq env q [] hds] at hd
              cases hd
          · intro e he
            rcases List.mem_append.mp he with h | h
            · exact hmaps e h
            · simp at h; subst h; intro pr hpr; cases hpr
        · rw [if_neg h3]
          obtain ⟨source0, localImports, hrf, hpi, hra⟩ := moduleDeps_code env p h3 ds hds
          obtain ⟨map, hbm⟩ := buildMap_total env p localImports ds hra
          rw [hrf]
          dsimp only
          rw [hpi]
          dsimp only
          rw [hbm]
          dsimp only
          have hmapLocal : ∀ pr ∈ map, isLocalSpecifier pr.1 = true := by
            intro pr hpr
            exact parseForImports_local env p (patchImportMetaUrl source0) localImports hpi
              pr.1 (buildMap_keys env p localImports map hbm pr hpr)
          have hInv2 : Inv env U ⟨st.modules, st.requireMaps ++ [(p, map)],
              p :: st.visiting, st.visited⟩ := by
            refine ⟨hkeys, hnd, hvdU, ?_, ?_, ?_, ?_⟩
            · intro q hq
              rcases List.mem_cons.mp hq with h | h
              · subst h; exact hpU
              · exact hvgU q h
            · intro q hq hq2
              rcases List.mem_cons.mp hq2 with h | h
              · subst h; exact h1 hq
              · exact hdisj q hq h
            · intro q hq d hd
              rcases hclosure q hq d hd with h | h
              · exact Or.inl h
              · exact Or.inr (List.mem_cons_of_mem _ h)
            · intro e he
              rcases List.mem_append.mp he with h | h
              · exact hmaps e h
              · simp at h; subst h; exact hmapLocal
          have hfree : freeOf U (p :: st.visiting) < n := by
            have := freeOf_lt p st.visiting h2 U hpU
            omega
          have hf : ∀ (q : String) (st4 : BuildSt), q ∈ U → Inv env U st4 →
              st4.visiting = p :: st.visiting →
              ∃ st5, loadModule env n q st4 = .ok st5 ∧ Inv env U st5 ∧
                st5.visiting = p :: st.visiting ∧
                (∃ tl, st5.visited = st4.visited ++ tl) ∧
                (q ∈ st5.visited ∨ q ∈ p :: st.visiting) := by
            intro q st4 hqU hinv4 hvis4
            obtain ⟨st5, heq5, hinv5, hvis5, hext5, hmem5⟩ :=
              ih q st4 hqU hinv4 (by rw [hvis4]; exact hfree)
            exact ⟨st5, heq5, hinv5, by rw [hvis5, hvis4], hext5,
              by rw [hvis4] at hmem5; exact hmem5⟩
          obtain ⟨st3, hld, hinv3, hvis3, ⟨tl, hvtd3⟩, hclose⟩ :=
            loadDeps_master env U p (p :: st.visiting) (loadModule env n) hf
              localImports ds ⟨st.modules, st.requireMaps ++ [(p, map)],
                p :: st.visiting, st.visited⟩ hra hdsU hInv2 rfl
          rw [hld]
          dsimp only
          obtain ⟨hkeys3, hnd3, hvdU3, hvgU3, hdisj3, hclosure3, hmaps3⟩ := hinv3
          have htr : ∃ c, env.transform p (patchImportMetaUrl source0) = .ok c := by
            rcases hjt with hj | ht
            · exact absurd hj h3
            · unfold transformOkB at ht
              rw [hrf] at ht
              dsimp only at ht
              split at ht
              next c heq => exact ⟨c, heq⟩
              next e heq => simp at ht
          obtain ⟨transformed, htre⟩ := htr
          rw [htre]
          dsimp only
          obtain ⟨rewritten, hrw⟩ := rewriteLocalRequires_total transformed map
          rw [hrw]
          dsimp only
          have hpnv3 : p ∉ st3.visited := by
            intro hcon
            exact hdisj3 p hcon (by rw [hvis3]; exact List.mem_cons_self _ _)
          rw [hvis3, List.erase_cons_head]
          refine ⟨_, rfl, ?_, rfl,
            ⟨tl ++ [p], by dsimp only; rw [hvtd3]; dsimp only; rw [List.append_assoc]⟩,
            Or.inl (by simp)⟩
          refine ⟨?_, ?_, ?_, ?_, ?_, ?_, ?_⟩
          · dsimp only; rw [List.map_append, hkeys3]; rfl
          · exact List.nodup_append.mpr ⟨hnd3, List.nodup_singleton p,
              by intro a ha hb; simp at hb; subst hb; exact hpnv3 ha⟩
          · intro q hq
            rcases List.mem_append.mp hq with h | h
            · exact hvdU3 q h
            · simp at h; subst h; exact hpU
          · intro q hq
            exact hvgU q hq
          · intro q hq
            rcases List.mem_append.mp hq with h | h
            · have := hdisj3 q h
              rw [hvis3] at this
              intro hcon
              exact this (List.mem_cons_of_mem _ hcon)
            · simp at h; subst h; exact h2
          · intro q hq d hd
            rcases List.mem_append.mp hq with h | h
            · rcases hclosure3 q h d hd with h4 | h4
              · exact Or.inl (List.mem_append_left _ h4)
              · rw [hvis3] at h4
                rcases List.mem_cons.mp h4 with h5 | h5
                · subst h5; exact Or.inl (List.mem_append_right _ (by simp))
                · exact Or.inr h5
            · simp at h; subst h
              rw [depsOf_eq env q ds hds] at hd
              rcases hclose d hd with h4 | h4
              · exact Or.inl (List.mem_append_left _ h4)
              · rcases List.mem_cons.mp h4 with h5 | h5
                · subst h5; exact Or.inl (List.mem_append_right _ (by simp))
                · exact Or.inr h5
          · intro e he
            exact hmaps3 e he



/-- C1: for every well-formed universe of modules whose resolved local
dependency graph is acyclic (witnessed by a rank function that strictly
decreases along dependencies), running the graph builder from an entry
module succeeds, and the emitted module table contains every module
reachable from the entry exactly once: its key list has no duplicates
and includes every reachable id. -/
theorem c1_table_exactly_once (env : Env) (U : List String) (entry : String) (fuel : Nat)
    (henv : envOkB env U = true) (hentry : entry ∈ U)
    (hacyc : ∃ rank : String → Nat, ∀ p ∈ U, ∀ d ∈ depsOf env p, rank d < rank p)
    (hfuel : U.length < fuel) :
    ∃ st, loadModule env fuel entry initSt = .ok st ∧
      (st.modules.map Prod.fst).Nodup ∧
      ∀ id, Reach env entry id → id ∈ st.modules.map Prod.fst := by
  obtain ⟨st, heq, hinv, hvis, hext, hmem⟩ :=
    loadModule_master env U henv fuel entry initSt hentry
      ⟨rfl, List.nodup_nil, fun q h => absurd h (by simp [initSt]),
       fun q h => absurd h (by simp [initSt]),
       fun q h => absurd h (by simp [initSt]),
       fun q h => absurd h (by simp [initSt]),
       fun e h => absurd h (by simp [initSt])⟩
      (by have h0 : initSt.visiting = [] := rfl
          rw [h0, freeOf_nil]; exact hfuel)
  obtain ⟨hkeys, hnd, hvdU, hvgU, hdisj, hclosure, hmaps⟩ := hinv
  have hviseq : st.visiting = ([] : List String) := hvis
  have hentryv : entry ∈ st.visited := by
    rcases hmem with h | h
    · exact h
    · exact absurd h (by simp [initSt])
  refine ⟨st, heq, by rw [hkeys]; exact hnd, ?_⟩
  intro id hreach
  rw [hkeys]
  induction hreach with
  | refl => exact hentryv
  | step ha hd ih2 =>
    rcases hclosure _ ih2 _ hd with h | h
    · exact h
    · rw [hviseq] at h; cases h

/-- Witness for C1 on the concrete acyclic environment `envA`
(`/m.ts` imports `./u`, resolved to `/u.ts`). -/
theorem c1_witness :
    ∃ st, loadModule envA 3 "/m.ts" initSt = .ok st ∧
      (st.modules.map Prod.fst).Nodup ∧
      ∀ id, Reach envA "/m.ts" id → id ∈ st.modules.map Prod.fst :=
  c1_table_exactly_once envA UA "/m.ts" 3 (by decide) (by decide)
    ⟨fun p => if p = "/m.ts" then 1 else 0, by decide⟩ (by decide)

/-- C3: for every well-formed universe containing a two-module cycle
(`A` lists `B` among its resolved dependencies and `B` lists `A`), the
build traversal from `A` terminates with success - with any fuel beyond
the universe size, so the visiting-set guard, not fuel exhaustion, stops
the recursion - and the emitted module table contains records for both
`A` and `B`. -/
theorem c3_cycle_terminates (env : Env) (U : List String) (A B : String) (fuel : Nat)
    (henv : envOkB env U = true) (hA : A ∈ U) (hB : B ∈ U)
    (hAB : B ∈ depsOf env A) (hBA : A ∈ depsOf env B)
    (hfuel : U.length < fuel) :
    ∃ st, loadModule env fuel A initSt = .ok st ∧
      A ∈ st.modules.map Prod.fst ∧ B ∈ st.modules.map Prod.fst := by
  obtain ⟨st, heq, hinv, hvis, hext, hmem⟩ :=
    loadModule_master env U henv fuel A initSt hA
      ⟨rfl, List.nodup_nil, fun q h => absurd h (by simp [initSt]),
       fun q h => absurd h (by simp [initSt]),
       fun q h => absurd h (by simp [initSt]),
       fun q h => absurd h (by simp [initSt]),
       fun e h => absurd h (by simp [initSt])⟩
      (by have h0 : initSt.visiting = [] := rfl
          rw [h0, freeOf_nil]; exact hfuel)
  obtain ⟨hkeys, hnd, hvdU, hvgU, hdisj, hclosure, hmaps⟩ := hinv
  have hviseq : st.visiting = ([] : List String) := hvis
  have hAv : A ∈ st.visited := by
    rcases hmem with h | h
    · exact h
    · exact absurd h (by simp [initSt])
  have hBv : B ∈ st.visited := by
    rcases hclosure A hAv B hAB with h | h
    · exact h
    · rw [hviseq] at h; cases h
  exact ⟨st, heq, by rw [hkeys]; exact hAv, by rw [hkeys]; exact hBv⟩

/-- Witness for C3 on the concrete cyclic environment `envB`
(`/a.ts` imports `./b` and `/b.ts` imports `./a`). -/
theorem c3_witness :
    ∃ st, loadModule envB 3 "/a.ts" initSt = .ok st ∧
      "/a.ts" ∈ st.modules.map Prod.fst ∧ "/b.ts" ∈ st.modules.map Prod.fst :=
  c3_cycle_terminates envB UB "/a.ts" "/b.ts" 3 (by decide) (by decide) (by decide)
    (by decide) (by decide) (by decide)

theorem skipWs_not_ws (c : Char) (ts : List Char) (h : isJsonWs c = false) :
    skipWs (c :: ts) = c :: ts := by
  simp [skipWs, List.dropWhile_cons, h]

theorem takeWhile_run (p : Char → Bool) :
    ∀ (ds rest : List Char), (∀ c ∈ ds, p c = true) →
      (∀ c, rest.head? = some c → p c = false) →
      (ds ++ rest).takeWhile p = ds ∧ (ds ++ rest).dropWhile p = rest := by
  intro ds
  induction ds with
  | nil =>
    intro rest _ hrest
    cases rest with
    | nil => simp
    | cons c cs =>
      have := hrest c rfl
      simp [List.takeWhile_cons, List.dropWhile_cons, this]
  | cons d ds ih =>
    intro rest hds hrest
    have hd : p d = true := hds d (List.mem_cons_self _ _)
    have := ih rest (fun c hc => hds c (List.mem_cons_of_mem _ hc)) hrest
    simp [List.takeWhile_cons, List.dropWhile_cons, hd, this.1, this.2]

theorem natCharsAux_acc : ∀ (n : Nat) (acc : List Char),
    natCharsAux n acc = natCharsAux n [] ++ acc := by
  intro n
  induction n using Nat.strong_induction_on with
  | _ n ih =>
    intro acc
    match n with
    | 0 => simp [natCharsAux]
    | m + 1 =>
      rw [natCharsAux, natCharsAux]
      rw [ih ((m + 1) / 10) (by omega) (digitChar ((m + 1) % 10) :: acc),
          ih ((m + 1) / 10) (by omega) [digitChar ((m + 1) % 10)]]
      simp

theorem digitChar_digit (n : Nat) (h : n < 10) : isDigitCh (digitChar n) = true := by
  interval_cases n <;> decide

theorem natCharsAux_digits : ∀ (n : Nat), ∀ c ∈ natCharsAux n [], isDigitCh c = true := by
  intro n
  induction n using Nat.strong_induction_on with
  | _ n ih =>
    match n with
    | 0 => intro c hc; rw [natCharsAux] at hc; cases hc
    | m + 1 =>
      intro c hc
      rw [natCharsAux, natCharsAux_acc] at hc
      rcases List.mem_append.mp hc with h | h
      · exact ih ((m + 1) / 10) (by omega) c h
      · simp at h
        subst h
        exact digitChar_digit _ (by omega)

theorem natChars_digits (n : Nat) : ∀ c ∈ natChars n, isDigitCh c = true := by
  unfold natChars
  split
  · intro c hc; simp at hc; subst hc; decide
  · exact natCharsAux_digits n

def digitStep (a : Nat) (c : Char) : Nat := a * 10 + (c.toNat - 48)

theorem toNat_digitChar (n : Nat) (h : n < 10) : (digitChar n).toNat = 48 + n := by
  interval_cases n <;> decide

theorem natCharsAux_foldl : ∀ (n : Nat), (natCharsAux n []).foldl digitStep 0 = n := by
  intro n
  induction n using Nat.strong_induction_on with
  | _ n ih =>
    match n with
    | 0 => simp [natCharsAux]
    | m + 1 =>
      rw [natCharsAux, natCharsAux_acc]
      rw [List.foldl_append]
      rw [ih ((m + 1) / 10) (by omega)]
      simp [digitStep, toNat_digitChar ((m + 1) % 10) (by omega)]
      omega

theorem natChars_foldl (n : Nat) : (natChars n).foldl digitStep 0 = n := by
  unfold natChars
  split
  next h => subst h; decide
  next h => exact natCharsAux_foldl n

theorem natChars_ne_nil (n : Nat) : natChars n ≠ [] := by
  unfold natChars
  split
  · simp
  next h =>
    obtain ⟨m, rfl⟩ : ∃ m, n = m + 1 := ⟨n - 1, by omega⟩
    rw [natCharsAux, natCharsAux_acc]
    simp

theorem natCharsAux_head_pos : ∀ (n : Nat), 0 < n →
    ∃ d ds, natCharsAux n [] = d :: ds ∧ d ≠ '0' := by
  intro n
  induction n using Nat.strong_induction_on with
  | _ n ih =>
    intro hpos
    obtain ⟨m, rfl⟩ : ∃ m, n = m + 1 := ⟨n - 1, by omega⟩
    rw [natCharsAux, natCharsAux_acc]
    by_cases h10 : (m + 1) / 10 = 0
    · rw [h10]
      simp only [natCharsAux, List.nil_append]
      have : (m + 1) % 10 = m + 1 := by omega
      rw [this]
      refine ⟨digitChar (m + 1), [], rfl, ?_⟩
      intro hcon
      have := congrArg Char.toNat hcon
      rw [toNat_digitChar (m + 1) (by omega)] at this
      simp at this
    · obtain ⟨d, ds, hds, hd0⟩ := ih ((m + 1) / 10) (by omega) (by omega)
      exact ⟨d, ds ++ [digitChar ((m + 1) % 10)], by rw [hds]; simp, hd0⟩

theorem digitsAux_all (a : Nat) : ∀ (ds : List Char), (∀ c ∈ ds, isDigitCh c = true) →
    digitsAux a ds = (ds.foldl digitStep a, []) := by
  intro ds
  induction ds generalizing a with
  | nil => intro _; simp [digitsAux]
  | cons c cs ih =>
    intro h
    rw [digitsAux]
    rw [if_pos (h c (List.mem_cons_self _ _))]
    rw [ih _ (fun x hx => h x (List.mem_cons_of_mem _ hx))]
    simp [digitStep]

theorem pNumDigits_natChars (n : Nat) (rest : List Char)
    (hrest : ∀ c, rest.head? = some c → isDigitCh c = false) :
    pNumDigits (natChars n ++ rest) = some (n, rest) := by
  obtain ⟨htake, hdrop⟩ := takeWhile_run isDigitCh (natChars n) rest (natChars_digits n) hrest
  unfold pNumDigits
  rw [htake, hdrop]
  dsimp only
  cases hnc : natChars n with
  | nil => exact absurd hnc (natChars_ne_nil n)
  | cons d ds =>
    cases ds with
    | nil =>
      have := natChars_foldl n
      rw [hnc] at this
      simp [List.foldl, digitStep] at this
      dsimp only
      rw [this]
    | cons e es =>
      have hd0 : d ≠ '0' := by
        unfold natChars at hnc
        split at hnc
        · simp at hnc
        next h =>
          obtain ⟨d2, ds2, hds2, hd02⟩ := natCharsAux_head_pos n (by omega)
          rw [hds2] at hnc
          cases hnc
          exact hd02
      dsimp only
      rw [if_neg hd0]
      rw [digitsAux_all 0 (d :: e :: es) (by rw [← hnc]; exact natChars_digits n)]
      have := natChars_foldl n
      rw [hnc] at this
      rw [this]

theorem hexVal_hexDigit (n : Nat) (h : n < 16) : hexVal (hexDigit n) = some n := by
  interval_cases n <;> decide

theorem pStr_quote (f : Nat) (ts : List Char) : pStr (f + 1) ('"' :: ts) = some ([], ts) := rfl

theorem pStr_escQ (f : Nat) (ts : List Char) :
    pStr (f + 1) ('\\' :: '"' :: ts) = (pStr f ts).map fun p => ('"' :: p.1, p.2) := rfl

theorem pStr_escBS (f : Nat) (ts : List Char) :
    pStr (f + 1) ('\\' :: '\\' :: ts) = (pStr f ts).map fun p => ('\\' :: p.1, p.2) := rfl

theorem pStr_escLowB (f : Nat) (ts : List Char) :
    pStr (f + 1) ('\\' :: 'b' :: ts) =
      (pStr f ts).map fun p => (Char.ofNat 8 :: p.1, p.2) := rfl

theorem pStr_escLowF (f : Nat) (ts : List Char) :
    pStr (f + 1) ('\\' :: 'f' :: ts) =
      (pStr f ts).map fun p => (Char.ofNat 12 :: p.1, p.2) := rfl

theorem pStr_escLowN (f : Nat) (ts : List Char) :
    pStr (f + 1) ('\\' :: 'n' :: ts) = (pStr f ts).map fun p => ('\n' :: p.1, p.2) := rfl

theorem pStr_escLowR (f : Nat) (ts : List Char) :
    pStr (f + 1) ('\\' :: 'r' :: ts) =
      (pStr f ts).map fun p => (Char.ofNat 13 :: p.1, p.2) := rfl

theorem pStr_escLowT (f : Nat) (ts : List Char) :
    pStr (f + 1) ('\\' :: 't' :: ts) =
      (pStr f ts).map fun p => (Char.ofNat 9 :: p.1, p.2) := rfl

theorem pStr_raw (f : Nat) (c : Char) (ts : List Char)
    (h1 : ¬ c = '"') (h2 : ¬ c = '\\') (h3 : ¬ c.toNat < 32) :
    pStr (f + 1) (c :: ts) = (pStr f ts).map fun p => (c :: p.1, p.2) := by
  rw [pStr.eq_def]
  dsimp only
  rw [if_neg h1, if_neg h2, if_neg h3]

theorem pStr_escStr : ∀ (s : List Char) (fuel : Nat) (rest : List Char), s.length < fuel →
    pStr fuel (escStr s ++ '"' :: rest) = some (s, rest) := by
  intro s
  induction s with
  | nil =>
    intro fuel rest hf
    obtain ⟨f, rfl⟩ : ∃ f, fuel = f + 1 := ⟨fuel - 1, by omega⟩
    rw [show escStr [] ++ '"' :: rest = '"' :: rest from rfl, pStr_quote]
  | cons c cs ih =>
    intro fuel rest hf
    obtain ⟨f, rfl⟩ : ∃ f, fuel = f + 1 := ⟨fuel - 1, by omega⟩
    have hih := ih f rest (by simp only [List.length_cons] at hf; omega)
    by_cases h1 : c = '"'
    · subst h1
      rw [show escStr ('"' :: cs) ++ '"' :: rest =
        '\\' :: '"' :: (escStr cs ++ '"' :: rest) by simp [escStr, escChar]]
      rw [pStr_escQ, hih]
      rfl
    · by_cases h2 : c = '\\'
      · subst h2
        rw [show escStr ('\\' :: cs) ++ '"' :: rest =
          '\\' :: '\\' :: (escStr cs ++ '"' :: rest) by simp [escStr, escChar]]
        rw [pStr_escBS, hih]
        rfl
      · by_cases h3 : c.toNat = 8
        · rw [show escStr (c :: cs) ++ '"' :: rest =
            '\\' :: 'b' :: (escStr cs ++ '"' :: rest) by
              simp [escStr, escChar, h1, h2, h3]]
          rw [pStr_escLowB, hih]
          have hc : Char.ofNat 8 = c := by rw [← h3]; exact Char.ofNat_toNat c
          rw [hc]
          rfl
        · by_cases h4 : c.toNat = 12
          · rw [show escStr (c :: cs) ++ '"' :: rest =
              '\\' :: 'f' :: (escStr cs ++ '"' :: rest) by
                simp [escStr, escChar, h1, h2, h3, h4]]
            rw [pStr_escLowF, hih]
            have hc : Char.ofNat 12 = c := by rw [← h4]; exact Char.ofNat_toNat c
            rw [hc]
            rfl
          · by_cases h5 : c = '\n'
            · subst h5
              rw [show escStr ('\n' :: cs) ++ '"' :: rest =
                '\\' :: 'n' :: (escStr cs ++ '"' :: rest) by
                  simp [escStr, escChar]]
              rw [pStr_escLowN, hih]
              rfl
            · by_cases h6 : c.toNat = 13
              · rw [show escStr (c :: cs) ++ '"' :: rest =
                  '\\' :: 'r' :: (escStr cs ++ '"' :: rest) by
                    simp [escStr, escChar, h1, h2, h3, h4, h5, h6]]
                rw [pStr_escLowR, hih]
                have hc : Char.ofNat 13 = c := by rw [← h6]; exact Char.ofNat_toNat c
                rw [hc]
                rfl
              · by_cases h7 : c.toNat = 9
                · rw [show escStr (c :: cs) ++ '"' :: rest =
                    '\\' :: 't' :: (escStr cs ++ '"' :: rest) by
                      simp [escStr, escChar, h1, h2, h3, h4, h5, h6, h7]]
                  rw [pStr_escLowT, hih]
                  have hc : Char.ofNat 9 = c := by rw [← h7]; exact Char.ofNat_toNat c
                  rw [hc]
                  rfl
                · by_cases h8 : c.toNat < 32
                  · rw [show escStr (c :: cs) ++ '"' :: rest =
                      '\\' :: 'u' :: '0' :: '0' :: hexDigit (c.toNat / 16) ::
                        hexDigit (c.toNat % 16) :: (escStr cs ++ '"' :: rest) by
                        simp [escStr, escChar, h1, h2, h3, h4, h5, h6, h7, h8]]
                    rw [pStr.eq_def]
                    dsimp only
                    rw [if_neg (by decide), if_pos rfl]
                    rw [if_neg (by decide), if_neg (by decide), if_neg (by decide),
                        if_neg (by decide), if_neg (by decide), if_neg (by decide),
                        if_pos rfl]
                    rw [show hexVal '0' = some 0 from rfl,
                        hexVal_hexDigit (c.toNat / 16) (by omega),
                        hexVal_hexDigit (c.toNat % 16) (by omega)]
                    dsimp only
                    rw [show ((0 * 16 + 0) * 16 + c.toNat / 16) * 16 + c.toNat % 16 =
                      c.toNat by omega]
                    rw [if_pos (Or.inl (by omega : c.toNat < 55296))]
                    rw [hih, Char.ofNat_toNat]
                    rfl
                  · rw [show escStr (c :: cs) ++ '"' :: rest =
                      c :: (escStr cs ++ '"' :: rest) by
                        simp [escStr, escChar, h1, h2, h3, h4, h5, h6, h7, h8]]
                    rw [pStr_raw f c _ h1 h2 h8, hih]
                    rfl

theorem pVal_null (f : Nat) (ts : List Char) :
    pVal (f + 1) ('n' :: 'u' :: 'l' :: 'l' :: ts) = some (.jnull, ts) := rfl

theorem pVal_true (f : Nat) (ts : List Char) :
    pVal (f + 1) ('t' :: 'r' :: 'u' :: 'e' :: ts) = some (.jbool true, ts) := rfl

theorem pVal_false (f : Nat) (ts : List Char) :
    pVal (f + 1) ('f' :: 'a' :: 'l' :: 's' :: 'e' :: ts) = some (.jbool false, ts) := rfl

theorem pVal_str (f : Nat) (ts : List Char) :
    pVal (f + 1) ('"' :: ts) =
      (pStr (ts.length + 1) ts).map fun p => (.jstr p.1, p.2) := rfl

theorem pVal_neg (f : Nat) (ts : List Char) :
    pVal (f + 1) ('-' :: ts) =
      (pNumDigits ts).map fun p => (.jnum (-(p.1 : Int)), p.2) := rfl

theorem pVal_arrNil (f : Nat) (ts : List Char) :
    pVal (f + 1) ('[' :: ']' :: ts) = some (.jarr [], ts) := rfl

theorem pVal_objNil (f : Nat) (ts : List Char) :
    pVal (f + 1) ('{' :: '}' :: ts) = some (.jobj [], ts) := rfl

theorem isDigitCh_toNat (d : Char) (h : isDigitCh d = true) :
    48 ≤ d.toNat ∧ d.toNat ≤ 57 := by
  unfold isDigitCh at h
  simp only [Bool.and_eq_true, decide_eq_true_eq] at h
  obtain ⟨h1, h2⟩ := h
  simp [Char.le_def] at h1 h2
  exact ⟨h1, h2⟩

theorem digit_facts (d : Char) (h : isDigitCh d = true) :
    isJsonWs d = false ∧ d ≠ ']' ∧ d ≠ '}' := by
  obtain ⟨hlo, hhi⟩ := isDigitCh_toNat d h
  refine ⟨?_, ?_, ?_⟩
  · cases hws : isJsonWs d with
    | false => rfl
    | true =>
      exfalso
      unfold isJsonWs at hws
      simp only [Bool.or_eq_true, decide_eq_true_eq] at hws
      rcases hws with ((h1 | h1) | h1) | h1
      · have := congrArg Char.toNat h1
        simp at this
        omega
      · omega
      · have := congrArg Char.toNat h1
        simp at this
        omega
      · omega
  · intro hcon; subst hcon; exact absurd h (by decide)
  · intro hcon; subst hcon; exact absurd h (by decide)

theorem stringify_head (v : JVal) : ∃ c cs, jsonStringify v = c :: cs ∧
    isJsonWs c = false ∧ c ≠ ']' ∧ c ≠ '}' := by
  match v with
  | .jnull => exact ⟨'n', _, rfl, by decide, by decide, by decide⟩
  | .jbool true => exact ⟨'t', _, rfl, by decide, by decide, by decide⟩
  | .jbool false => exact ⟨'f', _, rfl, by decide, by decide, by decide⟩
  | .jstr s => exact ⟨'"', _, rfl, by decide, by decide, by decide⟩
  | .jarr xs => exact ⟨'[', _, rfl, by decide, by decide, by decide⟩
  | .jobj fs => exact ⟨'{', _, rfl, by decide, by decide, by decide⟩
  | .jnum (.negSucc m) => exact ⟨'-', _, rfl, by decide, by decide, by decide⟩
  | .jnum (.ofNat m) =>
    cases hnc : natChars m with
    | nil => exact absurd hnc (natChars_ne_nil m)
    | cons d ds =>
      have hd : isDigitCh d = true := by
        have := natChars_digits m d
        rw [hnc] at this
        exact this (List.mem_cons_self _ _)
      obtain ⟨hws, hbr, hbc⟩ := digit_facts d hd
      exact ⟨d, ds, by simpa [jsonStringify, intChars] using hnc, hws, hbr, hbc⟩

def ndHead (ts : List Char) : Bool :=
  match ts with
  | [] => true
  | c :: _ => !isDigitCh c

theorem ndHead_spec (ts : List Char) (h : ndHead ts = true) :
    ∀ c, ts.head? = some c → isDigitCh c = false := by
  intro c hc
  cases ts with
  | nil => cases hc
  | cons d t =>
    cases hc
    unfold ndHead at h
    simpa using h

theorem pItems_cont (f : Nat) (ts R : List Char) (x : JVal)
    (hv : pVal f ts = some (x, ',' :: R)) :
    pItems (f + 1) ts = (pItems f R).map fun p => (x :: p.1, p.2) := by
  rw [pItems.eq_def]
  dsimp only
  rw [hv]
  rfl

theorem pItems_last (f : Nat) (ts R : List Char) (x : JVal)
    (hv : pVal f ts = some (x, ']' :: R)) :
    pItems (f + 1) ts = some ([x], R) := by
  rw [pItems.eq_def]
  dsimp only
  rw [hv]
  rfl

theorem pFields_last (f : Nat) (rest1 k r2 : List Char) (v : JVal) (R : List Char)
    (hk : pStr (rest1.length + 1) rest1 = some (k, ':' :: r2))
    (hv : pVal f r2 = some (v, '}' :: R)) :
    pFields (f + 1) ('"' :: rest1) = some ([(k, v)], R) := by
  rw [pFields.eq_def]
  dsimp only
  rw [show skipWs ('"' :: rest1) = '"' :: rest1 from skipWs_not_ws '"' _ (by decide)]
  simp only []
  rw [hk]
  simp only []
  rw [show skipWs (':' :: r2) = ':' :: r2 from skipWs_not_ws ':' _ (by decide)]
  simp only []
  rw [hv]
  rfl

theorem pFields_cont (f : Nat) (rest1 k r2 : List Char) (v : JVal) (R : List Char)
    (hk : pStr (rest1.length + 1) rest1 = some (k, ':' :: r2))
    (hv : pVal f r2 = some (v, ',' :: R)) :
    pFields (f + 1) ('"' :: rest1) =
      (pFields f R).map fun p => ((k, v) :: p.1, p.2) := by
  rw [pFields.eq_def]
  dsimp only
  rw [show skipWs ('"' :: rest1) = '"' :: rest1 from skipWs_not_ws '"' _ (by decide)]
  simp only []
  rw [hk]
  simp only []
  rw [show skipWs (':' :: r2) = ':' :: r2 from skipWs_not_ws ':' _ (by decide)]
  simp only []
  rw [hv]
  rfl

theorem pVal_arrCons (f : Nat) (c : Char) (t : List Char)
    (hws : isJsonWs c = false) (hbr : ¬ c = ']') :
    pVal (f + 1) ('[' :: c :: t) = (pItems f (c :: t)).map fun p => (.jarr p.1, p.2) := by
  rw [pVal.eq_def]
  dsimp only
  rw [show skipWs ('[' :: c :: t) = '[' :: c :: t from skipWs_not_ws '[' _ (by decide)]
  simp only []
  rw [skipWs_not_ws c t hws]
  split
  next r2 heq =>
    exfalso
    rw [List.cons.injEq] at heq
    exact hbr heq.1
  next => rfl

theorem pVal_objCons (f : Nat) (c : Char) (t : List Char)
    (hws : isJsonWs c = false) (hbc : ¬ c = '}') :
    pVal (f + 1) ('{' :: c :: t) = (pFields f (c :: t)).map fun p => (.jobj p.1, p.2) := by
  rw [pVal.eq_def]
  dsimp only
  rw [show skipWs ('{' :: c :: t) = '{' :: c :: t from skipWs_not_ws '{' _ (by decide)]
  simp only []
  rw [skipWs_not_ws c t hws]
  split
  next r2 heq =>
    exfalso
    rw [List.cons.injEq] at heq
    exact hbc heq.1
  next => rfl

theorem escChar_len (c : Char) : 1 ≤ (escChar c).length := by
  unfold escChar
  split_ifs <;> simp

theorem escStr_len (s : List Char) : s.length ≤ (escStr s).length := by
  induction s with
  | nil => simp [escStr]
  | cons c cs ih =>
    rw [escStr]
    have := escChar_len c
    simp only [List.length_append, List.length_cons]
    omega

mutual

theorem pVal_stringify (v : JVal) : ∀ (fuel : Nat) (rest : List Char),
    (jsonStringify v).length < fuel → ndHead rest = true →
    pVal fuel (jsonStringify v ++ rest) = some (v, rest) := by
  intro fuel rest hf hnd
  obtain ⟨f, rfl⟩ : ∃ f, fuel = f + 1 := ⟨fuel - 1, by omega⟩
  match v with
  | .jnull =>
    rw [show jsonStringify .jnull ++ rest = 'n' :: 'u' :: 'l' :: 'l' :: rest by
      simp [jsonStringify]]
    exact pVal_null f rest
  | .jbool true =>
    rw [show jsonStringify (.jbool true) ++ rest = 't' :: 'r' :: 'u' :: 'e' :: rest by
      simp [jsonStringify]]
    exact pVal_true f rest
  | .jbool false =>
    rw [show jsonStringify (.jbool false) ++ rest =
      'f' :: 'a' :: 'l' :: 's' :: 'e' :: rest by simp [jsonStringify]]
    exact pVal_false f rest
  | .jstr s =>
    rw [show jsonStringify (.jstr s) ++ rest = '"' :: (escStr s ++ '"' :: rest) by
      simp [jsonStringify, quoteStr]]
    rw [pVal_str]
    rw [pStr_escStr s _ rest (by
      have := escStr_len s
      simp only [List.length_append, List.length_cons]
      omega)]
    rfl
  | .jnum (.ofNat m) =>
    have hin : jsonStringify (.jnum (.ofNat m)) ++ rest = natChars m ++ rest := by
      simp [jsonStringify, intChars]
    rw [hin]
    cases hnc : natChars m with
    | nil => exact absurd hnc (natChars_ne_nil m)
    | cons d ds =>
      have hd : isDigitCh d = true := by
        have := natChars_digits m d
        rw [hnc] at this
        exact this (List.mem_cons_self _ _)
      obtain ⟨hws, hbr, hbc⟩ := digit_facts d hd
      simp only [List.cons_append]
      rw [pVal.eq_def]
      dsimp only
      rw [skipWs_not_ws d _ hws]
      split
      all_goals
        try
          rename_i heq
          rw [List.cons.injEq] at heq
          obtain ⟨h1, h2⟩ := heq
          subst h1
          exact absurd hd (by decide)
      rw [show d :: (ds ++ rest) = natChars m ++ rest by rw [hnc]; rfl]
      rw [pNumDigits_natChars m rest (ndHead_spec rest hnd)]
      rfl
  | .jnum (.negSucc m) =>
    rw [show jsonStringify (.jnum (.negSucc m)) ++ rest =
      '-' :: (natChars (m + 1) ++ rest) by simp [jsonStringify, intChars]]
    rw [pVal_neg]
    rw [pNumDigits_natChars (m + 1) rest (ndHead_spec rest hnd)]
    simp [Int.negSucc_eq]
  | .jarr [] =>
    rw [show jsonStringify (.jarr []) ++ rest = '[' :: ']' :: rest by
      simp [jsonStringify, stringifyItems]]
    exact pVal_arrNil f rest
  | .jarr (x :: xs) =>
    obtain ⟨c, cs, hcx, hws, hbr, hbc⟩ := stringify_head x
    have hit : ∃ t, stringifyItems (x :: xs) = c :: t := by
      cases xs with
      | nil => exact ⟨cs, by rw [show stringifyItems [x] = jsonStringify x by
          simp [stringifyItems], hcx]⟩
      | cons y r =>
        refine ⟨cs ++ ',' :: stringifyItems (y :: r), ?_⟩
        rw [show stringifyItems (x :: y :: r) =
          jsonStringify x ++ ',' :: stringifyItems (y :: r) by simp [stringifyItems], hcx]
        rfl
    obtain ⟨t, ht⟩ := hit
    have hin : jsonStringify (.jarr (x :: xs)) ++ rest =
        '[' :: c :: (t ++ ']' :: rest) := by
      rw [show jsonStringify (.jarr (x :: xs)) =
        '[' :: stringifyItems (x :: xs) ++ [']'] by simp [jsonStringify]]
      rw [ht]
      simp
    rw [hin]
    rw [pVal_arrCons f c _ hws hbr]
    rw [show c :: (t ++ ']' :: rest) = stringifyItems (x :: xs) ++ ']' :: rest by
      rw [ht]; rfl]
    rw [pItems_stringify (x :: xs) (by simp) f rest (by
      have : (jsonStringify (.jarr (x :: xs))).length =
          (stringifyItems (x :: xs)).length + 2 := by
        simp [jsonStringify]
      omega)]
    rfl
  | .jobj [] =>
    rw [show jsonStringify (.jobj []) ++ rest = '{' :: '}' :: rest by
      simp [jsonStringify, stringifyFields]]
    exact pVal_objNil f rest
  | .jobj ((k, v0) :: fs) =>
    have hit : ∃ t, stringifyFields ((k, v0) :: fs) = '"' :: t := by
      cases fs with
      | nil =>
        refine ⟨escStr k ++ '"' :: (':' :: jsonStringify v0), ?_⟩
        rw [show stringifyFields [(k, v0)] = quoteStr k ++ ':' :: jsonStringify v0 by
          simp [stringifyFields]]
        simp [quoteStr]
      | cons g r =>
        refine ⟨escStr k ++ '"' :: (':' :: (jsonStringify v0 ++
          ',' :: stringifyFields (g :: r))), ?_⟩
        rw [show stringifyFields ((k, v0) :: g :: r) =
          quoteStr k ++ ':' :: jsonStringify v0 ++ ',' :: stringifyFields (g :: r) by
          simp [stringifyFields]]
        simp [quoteStr]
    obtain ⟨t, ht⟩ := hit
    have hin : jsonStringify (.jobj ((k, v0) :: fs)) ++ rest =
        '{' :: '"' :: (t ++ '}' :: rest) := by
      rw [show jsonStringify (.jobj ((k, v0) :: fs)) =
        '{' :: stringifyFields ((k, v0) :: fs) ++ ['}'] by simp [jsonStringify]]
      rw [ht]
      simp
    rw [hin]
    rw [pVal_objCons f '"' _ (by decide) (by decide)]
    rw [show '"' :: (t ++ '}' :: rest) = stringifyFields ((k, v0) :: fs) ++ '}' :: rest by
      rw [ht]; rfl]
    rw [pFields_stringify ((k, v0) :: fs) (by simp) f rest (by
      have : (jsonStringify (.jobj ((k, v0) :: fs))).length =
          (stringifyFields ((k, v0) :: fs)).length + 2 := by
        simp [jsonStringify]
      omega)]
    rfl

theorem pItems_stringify (xs : List JVal) (hne : xs ≠ []) : ∀ (fuel : Nat) (rest : List Char),
    (stringifyItems xs).length + 1 < fuel →
    pItems fuel (stringifyItems xs ++ ']' :: rest) = some (xs, rest) := by
  intro fuel rest hf
  obtain ⟨f, rfl⟩ : ∃ f, fuel = f + 1 := ⟨fuel - 1, by omega⟩
  match xs, hne with
  | [x], _ =>
    have h1 : stringifyItems [x] = jsonStringify x := by simp [stringifyItems]
    rw [h1] at hf ⊢
    exact pItems_last f _ rest x
      (pVal_stringify x f (']' :: rest) (by omega) (by rfl))
  | x :: y :: r, _ =>
    have h1 : stringifyItems (x :: y :: r) =
        jsonStringify x ++ ',' :: stringifyItems (y :: r) := by simp [stringifyItems]
    have hlen : (stringifyItems (x :: y :: r)).length =
        (jsonStringify x).length + 1 + (stringifyItems (y :: r)).length := by
      rw [h1]; simp; try omega
    rw [h1, List.append_assoc, List.cons_append]
    rw [pItems_cont f _ _ x
      (pVal_stringify x f (',' :: (stringifyItems (y :: r) ++ ']' :: rest))
        (by omega) (by rfl))]
    rw [pItems_stringify (y :: r) (by simp) f rest (by omega)]
    rfl

theorem pFields_stringify (fs : List (List Char × JVal)) (hne : fs ≠ []) :
    ∀ (fuel : Nat) (rest : List Char),
    (stringifyFields fs).length + 1 < fuel →
    pFields fuel (stringifyFields fs ++ '}' :: rest) = some (fs, rest) := by
  intro fuel rest hf
  obtain ⟨f, rfl⟩ : ∃ f, fuel = f + 1 := ⟨fuel - 1, by omega⟩
  match fs, hne with
  | [(k, v0)], _ =>
    have h1 : stringifyFields [(k, v0)] = quoteStr k ++ ':' :: jsonStringify v0 := by
      simp [stringifyFields]
    have hlen : (stringifyFields [(k, v0)]).length =
        (quoteStr k).length + 1 + (jsonStringify v0).length := by
      rw [h1]; simp; try omega
    have hq : (quoteStr k).length = (escStr k).length + 2 := by simp [quoteStr]
    rw [show stringifyFields [(k, v0)] ++ '}' :: rest =
      '"' :: (escStr k ++ '"' :: (':' :: (jsonStringify v0 ++ '}' :: rest))) by
      rw [h1]; simp [quoteStr]]
    exact pFields_last f _ k _ v0 rest
      (pStr_escStr k _ _ (by
        have := escStr_len k
        simp only [List.length_append, List.length_cons]
        omega))
      (pVal_stringify v0 f ('}' :: rest) (by omega) (by rfl))
  | (k, v0) :: g :: r, _ =>
    have h1 : stringifyFields ((k, v0) :: g :: r) =
        quoteStr k ++ ':' :: jsonStringify v0 ++ ',' :: stringifyFields (g :: r) := by
      simp [stringifyFields]
    have hlen : (stringifyFields ((k, v0) :: g :: r)).length =
        (quoteStr k).length + 1 + (jsonStringify v0).length + 1 +
          (stringifyFields (g :: r)).length := by
      rw [h1]; simp; try omega
    have hq : (quoteStr k).length = (escStr k).length + 2 := by simp [quoteStr]
    rw [show stringifyFields ((k, v0) :: g :: r) ++ '}' :: rest =
      '"' :: (escStr k ++ '"' :: (':' :: (jsonStringify v0 ++
        ',' :: (stringifyFields (g :: r) ++ '}' :: rest)))) by
      rw [h1]; simp [quoteStr]]
    rw [pFields_cont f _ k _ v0 _
      (pStr_escStr k _ _ (by
        have := escStr_len k
        simp only [List.length_append, List.length_cons]
        omega))
      (pVal_stringify v0 f (',' :: (stringifyFields (g :: r) ++ '}' :: rest))
        (by omega) (by rfl))]
    rw [pFields_stringify (g :: r) (by simp) f rest (by omega)]
    rfl

end

theorem jsonParse_stringify (v : JVal) :
    jsonParse (String.mk (jsonStringify v)) = some v := by
  unfold jsonParse
  rw [show (String.mk (jsonStringify v)).data = jsonStringify v from rfl]
  have := pVal_stringify v ((jsonStringify v).length + 1) [] (by omega) (by decide)
  rw [List.append_nil] at this
  rw [this]
  rfl

theorem litHere_prefix : ∀ (pat rest : List Char), litHere pat (pat ++ rest) = true := by
  intro pat
  induction pat with
  | nil => intro rest; rfl
  | cons p ps ih =>
    intro rest
    rw [List.cons_append, litHere]
    simp [ih rest]

theorem denoteJsonBody_assign (v : JVal) :
    denoteJsonBody (jsonAssignCode v) = some [.assign (.json v)] := by
  have hdata : (jsonAssignCode v).data =
      "module.exports = ".data ++ (jsonStringify v ++ [';']) := by
    unfold jsonAssignCode
    simp [String.data_append]
  unfold denoteJsonBody
  rw [hdata, litHere_prefix]
  simp only [if_true]
  rw [show ("module.exports = ".data ++ (jsonStringify v ++ [';'])).drop 17 =
    jsonStringify v ++ [';'] by
    rw [show (17 : Nat) = "module.exports = ".data.length from rfl]
    exact List.drop_left _ _]
  rw [List.reverse_append]
  simp only [List.reverse_cons, List.reverse_nil, List.nil_append, List.singleton_append]
  rw [List.reverse_reverse]
  rw [jsonParse_stringify v]

/-- C9: a structured-data (JSON) dependency is loaded as a terminal
record: the graph builder performs no dependency extraction for it (its
recorded dependency map is empty), synthesizes a body that assigns the
parsed JSON value to `module.exports`, and loading that module through
the emitted loader yields exports equal to the parsed literal value of
the file. -/
theorem c9_json_dependency (env : Env) (fuel : Nat) (p text : String) (v : JVal)
    (st : BuildSt)
    (hjson : extnameLower p = ".json")
    (hrf : env.readFile p = .ok text)
    (hjp : jsonParse text = some v)
    (hnv : normalizeId env p ∉ st.visited)
    (hng : normalizeId env p ∉ st.visiting) :
    ∃ st2, loadModule env (fuel + 1) p st = .ok st2 ∧
      st2.modules = st.modules ++
        [(normalizeId env p, ⟨p, env.dirname p, jsonAssignCode v⟩)] ∧
      st2.requireMaps = st.requireMaps ++ [(normalizeId env p, [])] ∧
      denoteJsonBody (jsonAssignCode v) = some [.assign (.json v)] ∧
      ∀ (table : List (String × RtRec)) (g : Nat) (rst : RtSt),
        table.lookup (normalizeId env p) = some ⟨[.assign (.json v)]⟩ →
        rst.cache.lookup (normalizeId env p) = none →
        dctcRequire table (g + 1) (normalizeId env p) rst =
          some (.json v, ⟨(normalizeId env p, rst.heap.length) :: rst.cache,
            rst.heap ++ [.json v], rst.trace ++ [normalizeId env p]⟩) := by
  rw [loadModule]
  dsimp only
  rw [if_neg hnv, if_neg hng, if_pos hjson, hrf]
  dsimp only
  rw [hjp]
  dsimp only
  refine ⟨_, rfl, by dsimp only, by dsimp only, denoteJsonBody_assign v, ?_⟩
  intro table g rst htab hmiss
  rw [dctcRequire]
  dsimp only
  rw [hmiss]
  dsimp only
  rw [htab]
  dsimp only
  rw [show runBody (dctcRequire table g) (RtRec.mk [.assign (.json v)]).body
      rst.heap.length
      ⟨(normalizeId env p, rst.heap.length) :: rst.cache,
        rst.heap ++ [.container rst.heap.length], rst.trace ++ [normalizeId env p]⟩ =
    some ⟨(normalizeId env p, rst.heap.length) :: rst.cache,
        rst.heap ++ [.json v], rst.trace ++ [normalizeId env p]⟩ by
    rw [runBody]
    dsimp only
    rw [runBody]
    congr 1
    dsimp only
    rw [List.set_append_right _ _ (Nat.le_refl _)]
    simp]
  dsimp only
  rw [show heapGet ⟨(normalizeId env p, rst.heap.length) :: rst.cache,
      rst.heap ++ [.json v], rst.trace ++ [normalizeId env p]⟩ rst.heap.length =
    .json v by
    unfold heapGet
    dsimp only
    simp [List.getD]]

/-- Witness for C9 on the concrete environment `envD`, whose file
`/d.json` holds the text `{"k": [1, true]}`. -/
theorem c9_witness :
    ∃ st2, loadModule envD 1 "/d.json" initSt = .ok st2 ∧
      st2.modules = initSt.modules ++
        [(normalizeId envD "/d.json", ⟨"/d.json", envD.dirname "/d.json",
          jsonAssignCode (JVal.jobj [(['k'], JVal.jarr [JVal.jnum 1, JVal.jbool true])])⟩)] ∧
      st2.requireMaps = initSt.requireMaps ++ [(normalizeId envD "/d.json", [])] ∧
      denoteJsonBody (jsonAssignCode
          (JVal.jobj [(['k'], JVal.jarr [JVal.jnum 1, JVal.jbool true])])) =
        some [.assign (.json (JVal.jobj [(['k'], JVal.jarr [JVal.jnum 1, JVal.jbool true])]))] ∧
      ∀ (table : List (String × RtRec)) (g : Nat) (rst : RtSt),
        table.lookup (normalizeId envD "/d.json") =
          some ⟨[.assign (.json (JVal.jobj [(['k'], JVal.jarr [JVal.jnum 1, JVal.jbool true])]))]⟩ →
        rst.cache.lookup (normalizeId envD "/d.json") = none →
        dctcRequire table (g + 1) (normalizeId envD "/d.json") rst =
          some (.json (JVal.jobj [(['k'], JVal.jarr [JVal.jnum 1, JVal.jbool true])]),
            ⟨(normalizeId envD "/d.json", rst.heap.length) :: rst.cache,
              rst.heap ++ [.json (JVal.jobj [(['k'], JVal.jarr [JVal.jnum 1, JVal.jbool true])])],
              rst.trace ++ [normalizeId envD "/d.json"]⟩) :=
  c9_json_dependency envD 0 "/d.json" "\x7b\"k\": [1, true]\x7d"
    (JVal.jobj [(['k'], JVal.jarr [JVal.jnum 1, JVal.jbool true])]) initSt
    (by decide) rfl (by rfl) (by decide) (by decide)

theorem runBody_pres (f : String → RtSt → Option (RVal × RtSt))
    (hf : ∀ (q : String) (st : RtSt) (w : RVal) (st2 : RtSt),
      f q st = some (w, st2) →
      ∀ (i : String) (s : Nat), st.cache.lookup i = some s →
        st2.cache.lookup i = some s ∧ st2.trace.count i = st.trace.count i) :
    ∀ (ops : List BodyOp) (slot : Nat) (st st2 : RtSt),
      runBody f ops slot st = some st2 →
      ∀ (i : String) (s : Nat), st.cache.lookup i = some s →
        st2.cache.lookup i = some s ∧ st2.trace.count i = st.trace.count i := by
  intro ops
  induction ops with
  | nil =>
    intro slot st st2 h i s hc
    rw [runBody] at h
    cases h
    exact ⟨hc, rfl⟩
  | cons op rest ih =>
    intro slot st st2 h i s hc
    match op, h with
    | .require d, h =>
      rw [runBody] at h
      split at h
      next heq => exact absurd h (by simp)
      next w stm heq =>
        obtain ⟨hc2, ht2⟩ := hf d st w stm heq i s hc
        obtain ⟨hc3, ht3⟩ := ih slot stm st2 h i s hc2
        exact ⟨hc3, by rw [ht3, ht2]⟩
    | .assign w, h =>
      rw [runBody] at h
      exact ih slot _ st2 h i s hc

theorem dctcRequire_pres (table : List (String × RtRec)) :
    ∀ (fuel : Nat) (q : String) (st : RtSt) (w : RVal) (st2 : RtSt),
      dctcRequire table fuel q st = some (w, st2) →
      ∀ (i : String) (s : Nat), st.cache.lookup i = some s →
        st2.cache.lookup i = some s ∧ st2.trace.count i = st.trace.count i := by
  intro fuel
  induction fuel with
  | zero => intro q st w st2 h; exact absurd h (by rw [dctcRequire]; simp)
  | succ g ih =>
    intro q st w st2 h i s hc
    rw [dctcRequire] at h
    dsimp only at h
    split at h
    next slot heq =>
      cases h
      exact ⟨hc, rfl⟩
    next heq =>
      split at h
      next heq2 =>
        cases h
        exact ⟨hc, rfl⟩
      next r heq2 =>
        split at h
        next heq3 => exact absurd h (by simp)
        next stm heq3 =>
          rw [Option.some.injEq, Prod.mk.injEq] at h
          obtain ⟨hw, hst2⟩ := h
          subst hst2
          have hiq : ¬ i = q := by
            intro hcon
            subst hcon
            rw [hc] at heq
            cases heq
          have hc1 : ((q, st.heap.length) :: st.cache).lookup i = some s := by
            have hbeq : (i == q) = false := by simp [hiq]
            simp [List.lookup, hbeq, hc]
          have := runBody_pres (dctcRequire table g) (fun q2 st0 w0 st02 h0 => ih q2 st0 w0 st02 h0)
            r.body st.heap.length _ stm heq3 i s (by exact hc1)
          obtain ⟨hcf, htf⟩ := this
          refine ⟨hcf, ?_⟩
          rw [htf]
          dsimp only
          rw [List.count_append]
          simp [hiq]

/-- C4: within one run of the emitted loader, for an id present in the
module table, the first request allocates a fresh exports container at a
fresh heap slot, registers it in the cache before the module body
executes, runs the body exactly once (the ghost trace of executed bodies
gains exactly one occurrence of the id), and returns that module's
exports; any later request for an id held in the cache returns the
cached module's exports slot unchanged, with the loader state - hence
the trace - untouched, so the body is never re-executed. -/
theorem c4_loader_cache (table : List (String × RtRec)) (g : Nat) (id : String)
    (st : RtSt) (r : RtRec) (v : RVal) (st2 : RtSt)
    (hmiss : st.cache.lookup id = none)
    (htab : table.lookup id = some r)
    (hrun : dctcRequire table (g + 1) id st = some (v, st2)) :
    (runBody (dctcRequire table g) r.body st.heap.length
        ⟨(id, st.heap.length) :: st.cache, st.heap ++ [.container st.heap.length],
         st.trace ++ [id]⟩ = some st2 ∧
      heapGet ⟨(id, st.heap.length) :: st.cache, st.heap ++ [.container st.heap.length],
         st.trace ++ [id]⟩ st.heap.length = .container st.heap.length) ∧
    v = heapGet st2 st.heap.length ∧
    st2.cache.lookup id = some st.heap.length ∧
    st2.trace.count id = st.trace.count id + 1 ∧
    ∀ (g2 : Nat) (st3 : RtSt) (slot : Nat), st3.cache.lookup id = some slot →
      dctcRequire table (g2 + 1) id st3 = some (heapGet st3 slot, st3) := by
  rw [dctcRequire] at hrun
  dsimp only at hrun
  rw [hmiss] at hrun
  dsimp only at hrun
  rw [htab] at hrun
  dsimp only at hrun
  split at hrun
  next heq => exact absurd hrun (by simp)
  next stm heq =>
    rw [Option.some.injEq, Prod.mk.injEq] at hrun
    obtain ⟨hv, hst2⟩ := hrun
    subst hst2
    have hcache1 : ((id, st.heap.length) :: st.cache).lookup id = some st.heap.length := by
      simp [List.lookup]
    obtain ⟨hcf, htf⟩ := runBody_pres (dctcRequire table g)
      (fun q2 st0 w0 st02 h0 => dctcRequire_pres table g q2 st0 w0 st02 h0)
      r.body st.heap.length _ stm heq id st.heap.length hcache1
    refine ⟨⟨heq, ?_⟩, hv.symm, hcf, ?_, ?_⟩
    · unfold heapGet
      dsimp only
      simp [List.getD]
    · rw [htf]
      dsimp only
      rw [List.count_append]
      simp
    · intro g2 st3 slot hc3
      rw [dctcRequire]
      dsimp only
      rw [hc3]

/-- Witness for C4 on a one-module table with an empty body. -/
theorem c4_witness :
    (runBody (dctcRequire [("/m", RtRec.mk [])] 0) (RtRec.mk []).body initRt.heap.length
        ⟨("/m", initRt.heap.length) :: initRt.cache,
         initRt.heap ++ [.container initRt.heap.length],
         initRt.trace ++ ["/m"]⟩ =
      some ⟨[("/m", 0)], [.container 0], ["/m"]⟩ ∧
      heapGet ⟨("/m", initRt.heap.length) :: initRt.cache,
         initRt.heap ++ [.container initRt.heap.length],
         initRt.trace ++ ["/m"]⟩ initRt.heap.length = .container initRt.heap.length) ∧
    RVal.container 0 = heapGet ⟨[("/m", 0)], [.container 0], ["/m"]⟩ initRt.heap.length ∧
    (RtSt.mk [("/m", 0)] [.container 0] ["/m"]).cache.lookup "/m" =
      some initRt.heap.length ∧
    (RtSt.mk [("/m", 0)] [.container 0] ["/m"]).trace.count "/m" =
      initRt.trace.count "/m" + 1 ∧
    ∀ (g2 : Nat) (st3 : RtSt) (slot : Nat), st3.cache.lookup "/m" = some slot →
      dctcRequire [("/m", RtRec.mk [])] (g2 + 1) "/m" st3 =
        some (heapGet st3 slot, st3) :=
  c4_loader_cache [("/m", RtRec.mk [])] 0 "/m" initRt (RtRec.mk [])
    (RVal.container 0) ⟨[("/m", 0)], [.container 0], ["/m"]⟩ rfl rfl rfl

end Dctc
